import Mathlib

/-!
Verification of the backtesting engine of a trading-strategy simulation
backend (app/backtest of the repository).

Modelling conventions (shallow embedding):
- Python floats are modelled as exact rationals; the only irrational
  operation in the engine, the square root inside the Sharpe ratio, is
  modelled over the reals with Real.sqrt.
- Calendar dates (datetime.date and ISO date strings) are modelled as
  natural numbers ordered the same way; only their ordering is ever used.
- A Python function that can raise is modelled as an Except value, with an
  explicit error constructor for each raise site; an unguarded division is
  modelled by an explicit zero test returning the zeroDivision error,
  mirroring the ZeroDivisionError of the Python division operator.
- The backtrader broker (cash, cheat-on-close execution at the close of
  the current bar, zero commission, getvalue = cash + position * close) is
  modelled by explicit cash and position fields; the cerebro driver is
  modelled as invoking the strategy next method once per bar of the feed,
  which is the reading the source code itself assumes in its own
  not-enough-bars guard.
- Result bundles keep the numeric and list fields of the returned dicts;
  database metadata strings (asset name and type, algorithm id, raw dates)
  are dropped, and the sharpe_ratio field is the standalone compute_sharpe
  applied to the equity_curve field.
-/

/-- One OHLCV bar, from app/backtest/common/types.py (class Candle).
The field `open` of the source is renamed open_p since open is a keyword. -/
structure Candle where
  ts : Nat
  open_p : ℚ
  high : ℚ
  low : ℚ
  close : ℚ
  volume : ℚ
deriving Repr, DecidableEq

/-- One point of the equity curve, from app/backtest/common/types.py. -/
structure EquityPoint where
  date : Nat
  equity : ℚ
deriving Repr, DecidableEq

/-- One executed trade, from app/backtest/common/types.py. -/
structure Trade where
  date : Nat
  type : String
  price : ℚ
  quantity : ℚ
  profit_loss : ℚ
deriving Repr, DecidableEq

/-- Error outcomes of the engine, one constructor per raise site family:
paramError for parameter-validation ValueError raises, dataNotFound for
missing asset or empty bar range, unknownAlgorithm for registry misses,
zeroDivision for an unguarded Python division by zero. -/
inductive BTError where
  | paramError : String → BTError
  | dataNotFound : BTError
  | unknownAlgorithm : String → BTError
  | zeroDivision : BTError
deriving Repr, DecidableEq

/-- The result bundle assembled by every runner (numeric and list fields
of the returned dict). -/
structure BacktestResult where
  status : String
  initial_capital : ℚ
  final_equity : ℚ
  total_return : ℚ
  max_drawdown : ℚ
  equity_curve : List EquityPoint
  trades : List Trade
  number_of_trades : Nat
  winning_trades : Nat
  losing_trades : Nat
  accuracy : ℚ
deriving Repr, DecidableEq

/-- One iteration of the peak-tracking loop of compute_max_drawdown
(app/backtest/common/metrics.py, lines 19-25): the pair holds the running
peak and the running maximal drawdown. -/
def drawdownStep (acc : ℚ × ℚ) (p : EquityPoint) : ℚ × ℚ :=
  let peak := if p.equity > acc.1 then p.equity else acc.1
  let dd := if peak ≠ 0 then (peak - p.equity) / peak else 0
  (peak, if dd > acc.2 then dd else acc.2)

/-- compute_max_drawdown from app/backtest/common/metrics.py: peak seeded
with the first equity, loop over all points, 0 for the empty curve. -/
def compute_max_drawdown (equity_curve : List EquityPoint) : ℚ :=
  match equity_curve with
  | [] => 0
  | p0 :: _ => (equity_curve.foldl drawdownStep (p0.equity, 0)).2

/-- Specification-side helper: each equity paired with its running peak
(the peak is seeded with the given value and updated to the maximum seen
so far, as the spec describes the running peak). -/
def peaksWith (seed : ℚ) : List ℚ → List (ℚ × ℚ)
  | [] => []
  | e :: es => (max seed e, e) :: peaksWith (max seed e) es

/-- Specification-side drawdown of one point: (peak - equity) / peak,
taken as 0 when the peak is 0. -/
def ddOfPair (pe : ℚ × ℚ) : ℚ :=
  if pe.1 = 0 then 0 else (pe.1 - pe.2) / pe.1

/-- Specification-side restatement of the max-drawdown sentence of the
spec: the maximum over points of the per-point drawdown against the
running peak, 0 for the empty curve. -/
def spec_max_drawdown (curve : List EquityPoint) : ℚ :=
  let es := curve.map EquityPoint.equity
  ((peaksWith (es.headD 0) es).map ddOfPair).foldr max 0

/-- Simple period returns between consecutive equity points, skipping any
pair whose previous value is 0 (compute_sharpe, metrics.py lines 38-43). -/
def sharpeReturns : List EquityPoint → List ℚ
  | p :: q :: rest =>
      (if p.equity ≠ 0 then [(q.equity - p.equity) / p.equity] else [])
        ++ sharpeReturns (q :: rest)
  | _ => []

/-- Mean of the return list (metrics.py line 48). -/
def sharpeMean (rs : List ℚ) : ℚ := rs.sum / rs.length

/-- Population variance of the return list (metrics.py line 49). -/
def sharpeVar (rs : List ℚ) : ℚ :=
  ((rs.map (fun r => (r - sharpeMean rs) ^ 2)).sum) / rs.length

/-- The final clipping of the Sharpe value to [-5, 5]
(metrics.py lines 55-59). -/
noncomputable def sharpeClip (x : ℝ) : ℝ :=
  if x > 5 then 5 else if x < -5 then -5 else x

/-- compute_sharpe from app/backtest/common/metrics.py: 0 for fewer than
two points, fewer than two valid returns, or zero standard deviation;
otherwise mean over standard deviation, annualized by the square root of
252 and clipped to [-5, 5]. -/
noncomputable def compute_sharpe (equity_curve : List EquityPoint) : ℝ :=
  if equity_curve.length < 2 then 0 else
  let returns := sharpeReturns equity_curve
  if returns.length < 2 then 0 else
  let avg := sharpeMean returns
  let var := sharpeVar returns
  let std : ℝ := Real.sqrt (var : ℚ)
  if std = 0 then 0 else
  sharpeClip (((avg : ℝ) / std) * Real.sqrt 252)

/-- trade_stats from app/backtest/common/stats.py: winning and losing
counts over sell trades and the accuracy percentage. -/
def trade_stats (trades : List Trade) : Nat × Nat × ℚ :=
  let sell_trades := trades.filter (fun t => t.type = "sell")
  let winning := (sell_trades.filter (fun t => t.profit_loss > 0)).length
  let losing := (sell_trades.filter (fun t => t.profit_loss < 0)).length
  let total_closed := winning + losing
  let accuracy : ℚ :=
    if total_closed > 0 then ((winning : ℚ) / (total_closed : ℚ)) * 100 else 0
  (winning, losing, accuracy)

/-- Last equity of a curve, with a default for the empty curve
(the Python expression curve[-1].equity if curve else default). -/
def lastEquity (eps : List EquityPoint) (dflt : ℚ) : ℚ :=
  match eps.getLast? with
  | some p => p.equity
  | none => dflt

/-- total_return assembly shared by every runner: final over initial
minus one, guarded to 0 when the initial capital is 0. -/
def totalReturnOf (final_equity initial_capital : ℚ) : ℚ :=
  if initial_capital ≠ 0 then final_equity / initial_capital - 1 else 0

/-- Bundle assembly shared by every runner (the common tail of each
returned dict). -/
def assembleResult (initial_capital : ℚ) (equity_curve : List EquityPoint)
    (trades : List Trade) : BacktestResult :=
  let final_equity := lastEquity equity_curve initial_capital
  let stats := trade_stats trades
  { status := "completed"
    initial_capital := initial_capital
    final_equity := final_equity
    total_return := totalReturnOf final_equity initial_capital
    max_drawdown := compute_max_drawdown equity_curve
    equity_curve := equity_curve
    trades := trades
    number_of_trades := trades.length
    winning_trades := stats.1
    losing_trades := stats.2.1
    accuracy := stats.2.2 }

/-- run_buy_and_hold from app/backtest/algorithms/buy_and_hold.py: buys at
the close of the first candle with the whole capital when that close is
positive, holds, sells at the close of the last candle; otherwise leaves
the capital flat with no trades. The candle loading already raised when
the range was empty. -/
def run_buy_and_hold (candles : List Candle) (start_date : Nat)
    (initial_capital : ℚ) : Except BTError BacktestResult :=
  match candles with
  | [] => .error .dataNotFound
  | first :: rest =>
    let lastc := (first :: rest).getLastD first
    let entry_date := first.ts
    let exit_date := lastc.ts
    let entry_price := first.close
    let exit_price := lastc.close
    let size := if entry_price > 0 then initial_capital / entry_price else 0
    let equity_curve :=
      if size > 0 then
        (first :: rest).map (fun c => ({ date := c.ts, equity := size * c.close } : EquityPoint))
      else
        (first :: rest).map (fun c => ({ date := c.ts, equity := initial_capital } : EquityPoint))
    let final_equity := if size > 0 then size * exit_price else initial_capital
    let trades : List Trade :=
      if size > 0 then
        [ { date := entry_date, type := "buy", price := entry_price,
            quantity := size, profit_loss := 0 },
          { date := exit_date, type := "sell", price := exit_price,
            quantity := size, profit_loss := final_equity - initial_capital } ]
      else []
    let equity_curve :=
      if equity_curve.isEmpty then
        [({ date := start_date, equity := initial_capital } : EquityPoint)]
      else equity_curve
    .ok { assembleResult initial_capital equity_curve trades with
          final_equity := final_equity
          total_return := totalReturnOf final_equity initial_capital }

/-- The per-bar loop of run_market_benchmark
(app/backtest/algorithms/market_benchmark.py, lines 84-104): state is
carried through unchanged until the very last candle, where an open
position is sold at the close; every bar appends one mark-to-market
equity point. -/
def marketLoop (first_price cash pos : ℚ) : List Candle → List Trade × List EquityPoint
  | [] => ([], [])
  | [c] =>
      if pos > 0 then
        let pnl := (c.close - first_price) * pos
        let cash2 := pos * c.close
        ([{ date := c.ts, type := "sell", price := c.close,
            quantity := pos, profit_loss := pnl }],
         [{ date := c.ts, equity := cash2 + 0 * c.close }])
      else ([], [{ date := c.ts, equity := cash + pos * c.close }])
  | c :: c2 :: rest =>
      let tail := marketLoop first_price cash pos (c2 :: rest)
      (tail.1, { date := c.ts, equity := cash + pos * c.close } :: tail.2)

/-- run_market_benchmark from app/backtest/algorithms/market_benchmark.py:
buys everything at the unguarded quotient capital / first close on day
one, holds, and sells at the last close. A first close of 0 is the
ZeroDivisionError of the Python division; the empty candle list is the
early error return of the source. -/
def run_market_benchmark (candles : List Candle) (initial_capital : ℚ) :
    Except BTError BacktestResult :=
  match candles with
  | [] => .error .dataNotFound
  | first :: rest =>
    if first.close = 0 then .error .zeroDivision else
    let first_price := first.close
    let qty := initial_capital / first_price
    let st :=
      if qty > 0 then
        ((0 : ℚ), qty,
         [({ date := first.ts, type := "buy", price := first_price,
             quantity := qty, profit_loss := 0 } : Trade)])
      else ((initial_capital : ℚ), (0 : ℚ), ([] : List Trade))
    let looped := marketLoop first_price st.1 st.2.1 (first :: rest)
    .ok (assembleResult initial_capital looped.2 (st.2.2 ++ looped.1))

/-- The per-bar loop of run_omniscient_benchmark
(app/backtest/algorithms/omniscient_benchmark.py, lines 52-109): with one
bar of lookahead, buy at the current close when flat before a rise, sell
at the current close when long before a fall, close any open position at
the last close; every bar appends one mark-to-market equity point. -/
def omniLoop (cash pos entry : ℚ) : List Candle → List Trade × List EquityPoint
  | [] => ([], [])
  | [c] =>
      if pos > 0 then
        let cash2 := cash + pos * c.close
        let pnl := (c.close - entry) * pos
        ([{ date := c.ts, type := "sell", price := c.close,
            quantity := pos, profit_loss := pnl }],
         [{ date := c.ts, equity := cash2 + 0 * c.close }])
      else ([], [{ date := c.ts, equity := cash + pos * c.close }])
  | c :: c2 :: rest =>
      if pos = 0 ∧ c2.close > c.close then
        let qty := if c.close > 0 then cash / c.close else 0
        if qty > 0 then
          let cash2 := cash - qty * c.close
          let tail := omniLoop cash2 qty c.close (c2 :: rest)
          ({ date := c.ts, type := "buy", price := c.close,
             quantity := qty, profit_loss := 0 } :: tail.1,
           { date := c.ts, equity := cash2 + qty * c.close } :: tail.2)
        else
          let tail := omniLoop cash pos entry (c2 :: rest)
          (tail.1, { date := c.ts, equity := cash + pos * c.close } :: tail.2)
      else if pos > 0 ∧ c2.close < c.close then
        let cash2 := cash + pos * c.close
        let pnl := (c.close - entry) * pos
        let tail := omniLoop cash2 0 0 (c2 :: rest)
        ({ date := c.ts, type := "sell", price := c.close,
           quantity := pos, profit_loss := pnl } :: tail.1,
         { date := c.ts, equity := cash2 + 0 * c.close } :: tail.2)
      else
        let tail := omniLoop cash pos entry (c2 :: rest)
        (tail.1, { date := c.ts, equity := cash + pos * c.close } :: tail.2)

/-- run_omniscient_benchmark from
app/backtest/algorithms/omniscient_benchmark.py: the greedy
perfect-foresight long-or-cash policy over the candle list. -/
def run_omniscient_benchmark (candles : List Candle) (initial_capital : ℚ) :
    Except BTError BacktestResult :=
  match candles with
  | [] => .error .dataNotFound
  | _ :: _ =>
    let looped := omniLoop initial_capital 0 0 candles
    .ok (assembleResult initial_capital looped.2 looped.1)

/-- Mutable state of a backtrader strategy instance
(SmaCrossoverBT and RSIMeanReversionBT constructors): broker cash and
position size, last entry price, trade log and equity curve. -/
structure StratState where
  cash : ℚ
  position : ℚ
  entry_price : ℚ
  trades_log : List Trade
  equity_curve : List EquityPoint
deriving Repr, DecidableEq

/-- Parameters of SmaCrossoverBT (sma_crossover.py, lines 206-211). -/
structure SmaParams where
  short_window : Nat
  long_window : Nat
  sim_start_date : Nat
deriving Repr, DecidableEq

/-- Simple moving average of window w ending at 0-based bar index i of
the full feed (bt.indicators.SimpleMovingAverage of the close line): the
mean of the last w closes among the first i + 1. -/
def smaAt (closes : List ℚ) (w : Nat) (i : Nat) : ℚ :=
  (((closes.take (i + 1)).drop (i + 1 - w)).sum) / (w : ℚ)

/-- One invocation of SmaCrossoverBT.next (sma_crossover.py, lines
225-283) at global bar index i: skip warmup bars, record equity only
while the slow SMA is not yet formed, otherwise trade on the crossover
signal and record the mark-to-market equity. -/
def smaCrossoverNext (p : SmaParams) (closes : List ℚ) (i : Nat) (c : Candle)
    (s : StratState) : StratState :=
  if c.ts < p.sim_start_date then s
  else
    let price := c.close
    if i + 1 < p.long_window then
      { s with equity_curve :=
          s.equity_curve ++ [{ date := c.ts, equity := s.cash + s.position * price }] }
    else
      let s1 :=
        if s.position = 0 then
          if smaAt closes p.short_window i > smaAt closes p.long_window i then
            let size := if price > 0 then s.cash / price else 0
            if size > 0 then
              { s with cash := s.cash - size * price
                       position := size
                       entry_price := price
                       trades_log := s.trades_log ++
                         [{ date := c.ts, type := "buy", price := price,
                            quantity := size, profit_loss := 0 }] }
            else s
          else s
        else
          if smaAt closes p.short_window i < smaAt closes p.long_window i then
            let size := s.position
            let pnl := (price - s.entry_price) * size
            { s with cash := s.cash + size * price
                     position := 0
                     entry_price := 0
                     trades_log := s.trades_log ++
                       [{ date := c.ts, type := "sell", price := price,
                          quantity := size, profit_loss := pnl }] }
          else s
      { s1 with equity_curve :=
          s1.equity_curve ++ [{ date := c.ts, equity := s1.cash + s1.position * price }] }

/-- The cerebro loop driving SmaCrossoverBT: next once per bar of the
feed, threading the bar index and the state. -/
def smaLoop (p : SmaParams) (closes : List ℚ) (i : Nat) (s : StratState) :
    List Candle → StratState
  | [] => s
  | c :: rest => smaLoop p closes (i + 1) (smaCrossoverNext p closes i c s) rest

/-- The full SmaCrossoverBT simulation over a candle feed starting from
broker cash equal to the initial capital. -/
def smaCrossoverRun (p : SmaParams) (candles : List Candle)
    (initial_capital : ℚ) : StratState :=
  smaLoop p (candles.map Candle.close) 0
    { cash := initial_capital, position := 0, entry_price := 0,
      trades_log := [], equity_curve := [] } candles

/-- The per-bar trace of the SmaCrossoverBT simulation: every bar of the
feed paired with the state right after its next invocation. -/
def smaScan (p : SmaParams) (closes : List ℚ) (i : Nat) (s : StratState) :
    List Candle → List (Candle × StratState)
  | [] => []
  | c :: rest =>
      let s2 := smaCrossoverNext p closes i c s
      (c, s2) :: smaScan p closes (i + 1) s2 rest

/-- The tail of run_sma_crossover after the cerebro run
(sma_crossover.py, lines 289-359): fall back to a single equity point at
the start date when the curve is empty, then assemble the bundle. -/
def smaResult (p : SmaParams) (candles : List Candle) (initial_capital : ℚ) :
    BacktestResult :=
  let strat := smaCrossoverRun p candles initial_capital
  let equity_curve :=
    if strat.equity_curve.isEmpty then
      [({ date := p.sim_start_date, equity := initial_capital } : EquityPoint)]
    else strat.equity_curve
  assembleResult initial_capital equity_curve strat.trades_log

/-- run_sma_crossover from app/backtest/algorithms/sma_crossover.py: the
two parameter validations (windows positive, short strictly below long)
run before the candle load; the load itself (warmup window included) is
abstracted as an Except argument supplied by the database layer. -/
def run_sma_crossover (load : Except BTError (List Candle))
    (short_window long_window : Int) (start_date : Nat)
    (initial_capital : ℚ) : Except BTError BacktestResult :=
  if short_window ≤ 0 ∨ long_window ≤ 0 then
    .error (.paramError "short_window and long_window must be > 0")
  else if short_window ≥ long_window then
    .error (.paramError "short_window must be < long_window")
  else
    match load with
    | .error e => .error e
    | .ok candles =>
        .ok (smaResult
          { short_window := short_window.toNat, long_window := long_window.toNat,
            sim_start_date := start_date } candles initial_capital)

/-- Parameters of RSIMeanReversionBT (rsi_reversion.py, lines 90-96). -/
structure RsiParams where
  rsi_period : Nat
  oversold : ℚ
  overbought : ℚ
  sim_start_date : Nat
deriving Repr, DecidableEq

/-- One invocation of RSIMeanReversionBT.next (rsi_reversion.py, lines
107-166) at global bar index i. The RSI indicator itself is
bt.indicators.RSI, third-party library code outside this repository; its
per-bar value is abstracted as the oracle rsiAt, on which none of the
verified properties depend. -/
def rsiReversionNext (p : RsiParams) (rsiAt : Nat → ℚ) (i : Nat) (c : Candle)
    (s : StratState) : StratState :=
  if c.ts < p.sim_start_date then s
  else
    let price := c.close
    if i + 1 < p.rsi_period then
      { s with equity_curve :=
          s.equity_curve ++ [{ date := c.ts, equity := s.cash + s.position * price }] }
    else
      let rsi_value := rsiAt i
      let s1 :=
        if s.position = 0 then
          if rsi_value < p.oversold then
            let size := if price > 0 then s.cash / price else 0
            if size > 0 then
              { s with cash := s.cash - size * price
                       position := size
                       entry_price := price
                       trades_log := s.trades_log ++
                         [{ date := c.ts, type := "buy", price := price,
                            quantity := size, profit_loss := 0 }] }
            else s
          else s
        else
          if rsi_value > p.overbought then
            let size := s.position
            let pnl := (price - s.entry_price) * size
            { s with cash := s.cash + size * price
                     position := 0
                     entry_price := 0
                     trades_log := s.trades_log ++
                       [{ date := c.ts, type := "sell", price := price,
                          quantity := size, profit_loss := pnl }] }
          else s
      { s1 with equity_curve :=
          s1.equity_curve ++ [{ date := c.ts, equity := s1.cash + s1.position * price }] }

/-- The cerebro loop driving RSIMeanReversionBT. -/
def rsiLoop (p : RsiParams) (rsiAt : Nat → ℚ) (i : Nat) (s : StratState) :
    List Candle → StratState
  | [] => s
  | c :: rest => rsiLoop p rsiAt (i + 1) (rsiReversionNext p rsiAt i c s) rest

/-- The full RSIMeanReversionBT simulation over a candle feed. -/
def rsiReversionRun (p : RsiParams) (rsiAt : Nat → ℚ) (candles : List Candle)
    (initial_capital : ℚ) : StratState :=
  rsiLoop p rsiAt 0
    { cash := initial_capital, position := 0, entry_price := 0,
      trades_log := [], equity_curve := [] } candles

/-- The per-bar trace of the RSIMeanReversionBT simulation. -/
def rsiScan (p : RsiParams) (rsiAt : Nat → ℚ) (i : Nat) (s : StratState) :
    List Candle → List (Candle × StratState)
  | [] => []
  | c :: rest =>
      let s2 := rsiReversionNext p rsiAt i c s
      (c, s2) :: rsiScan p rsiAt (i + 1) s2 rest

/-- The tail of run_rsi_reversion after the cerebro run
(rsi_reversion.py, lines 172-241). -/
def rsiResult (p : RsiParams) (rsiAt : Nat → ℚ) (candles : List Candle)
    (initial_capital : ℚ) : BacktestResult :=
  let strat := rsiReversionRun p rsiAt candles initial_capital
  let equity_curve :=
    if strat.equity_curve.isEmpty then
      [({ date := p.sim_start_date, equity := initial_capital } : EquityPoint)]
    else strat.equity_curve
  assembleResult initial_capital equity_curve strat.trades_log

/-- run_rsi_reversion from app/backtest/algorithms/rsi_reversion.py: the
period and threshold validations (rsi_reversion.py, lines 51-54) run
before the candle load, which is abstracted as an Except argument. -/
def run_rsi_reversion (load : Except BTError (List Candle)) (rsiAt : Nat → ℚ)
    (rsi_period : Int) (oversold overbought : ℚ) (start_date : Nat)
    (initial_capital : ℚ) : Except BTError BacktestResult :=
  if rsi_period ≤ 1 then
    .error (.paramError "rsi_period must be > 1")
  else if ¬(0 ≤ oversold ∧ oversold < overbought ∧ overbought ≤ 100) then
    .error (.paramError "Require 0 <= oversold < overbought <= 100")
  else
    match load with
    | .error e => .error e
    | .ok candles =>
        .ok (rsiResult
          { rsi_period := rsi_period.toNat, oversold := oversold,
            overbought := overbought, sim_start_date := start_date }
          rsiAt candles initial_capital)

/-- Tag for the strategy function bound by an AlgorithmSpec; one
constructor per module of app/backtest/algorithms that exports an
ALGORITHM spec and is therefore picked up by the discovery scan. -/
inductive AlgorithmFn where
  | runDonchianBreakout
  | runMarketBenchmark
  | runTimeSeriesMomentum
deriving Repr, DecidableEq

/-- ParamDef from app/backtest/algorithms/utils/spec.py. -/
structure ParamDef where
  name : String
  label : String
  type : String
  min : ℚ
  max : ℚ
  step : ℚ
  default : ℚ
  description : Option String
deriving Repr, DecidableEq

/-- AlgorithmSpec from app/backtest/algorithms/utils/spec.py. -/
structure AlgorithmSpec where
  id : String
  name : String
  category : String
  description : String
  params : List ParamDef
  fn : AlgorithmFn
  hidden : Bool := false
deriving Repr, DecidableEq

/-- The ALGORITHM spec of app/backtest/algorithms/donchian_breakout.py. -/
def donchianSpec : AlgorithmSpec :=
  { id := "donchian_breakout"
    name := "Donchian Breakout"
    category := "Trend-following"
    description := "Enters long when price exceeds the recent high; exits when price falls below the recent low."
    params := [ { name := "lookback_period", label := "Lookback Period",
                  type := "int", min := 5, max := 200, step := 1, default := 20,
                  description := some "Number of days for the High/Low channel." } ]
    fn := .runDonchianBreakout
    hidden := false }

/-- The ALGORITHM spec of app/backtest/algorithms/market_benchmark.py,
registered with hidden set. -/
def marketBenchmarkSpec : AlgorithmSpec :=
  { id := "market_benchmark"
    name := "Market Benchmark"
    category := "Benchmark"
    description := "Standard Buy and Hold benchmark."
    params := []
    fn := .runMarketBenchmark
    hidden := true }

/-- The ALGORITHM spec of
app/backtest/algorithms/time_series_momentum.py. -/
def timeSeriesMomentumSpec : AlgorithmSpec :=
  { id := "time_series_momentum"
    name := "Time Series Momentum"
    category := "Trend-following"
    description := "Buys if the past return (ROC) is positive; sells if it turns negative."
    params := [ { name := "momentum_period", label := "Momentum Period",
                  type := "int", min := 10, max := 500, step := 1, default := 252,
                  description := some "Number of days to look back for momentum (ROC)." } ]
    fn := .runTimeSeriesMomentum
    hidden := false }

/-- The registry built by _load_specs in
app/backtest/algorithms/utils/discovery.py: the modules of the algorithms
package that export an ALGORITHM attribute, in the alphabetical order of
the module scan (donchian_breakout, market_benchmark,
time_series_momentum; the remaining strategy modules export no ALGORITHM
and are skipped by the scan). -/
def loadedSpecs : List AlgorithmSpec :=
  [donchianSpec, marketBenchmarkSpec, timeSeriesMomentumSpec]

/-- The catalog entry shape returned by list_algorithm_definitions. -/
structure AlgorithmDefinition where
  id : String
  name : String
  category : String
  description : String
  params : List ParamDef
deriving Repr, DecidableEq

/-- Projection of a spec to its catalog entry
(discovery.py, lines 48-68). -/
def definitionOf (s : AlgorithmSpec) : AlgorithmDefinition :=
  { id := s.id, name := s.name, category := s.category,
    description := s.description, params := s.params }

/-- list_algorithm_definitions from discovery.py: the non-hidden specs of
the registry, projected to catalog entries. -/
def list_algorithm_definitions : List AlgorithmDefinition :=
  (loadedSpecs.filter (fun s => !s.hidden)).map definitionOf

/-- get_algorithm_fn from discovery.py, lines 72-76: look the id up in
the registry, raising for an unknown id. -/
def get_algorithm_fn (algorithm_id : String) : Except BTError AlgorithmFn :=
  match loadedSpecs.find? (fun s => s.id == algorithm_id) with
  | some spec => .ok spec.fn
  | none => .error (.unknownAlgorithm algorithm_id)

/-- Number of trades of a given side in a log. -/
def countSide (trades : List Trade) (side : String) : Nat :=
  (trades.filter (fun t => t.type = side)).length

/-- A fully closed trade log: a sequence of adjacent buy-sell pairs in
which each sell closes the preceding buy exactly (same quantity, and
profit_loss equal to the price difference times the quantity). -/
def closedPaired : List Trade → Prop
  | [] => True
  | [_] => False
  | b :: s :: rest =>
      b.type = "buy" ∧ s.type = "sell" ∧ s.quantity = b.quantity ∧
      s.profit_loss = (s.price - b.price) * s.quantity ∧ closedPaired rest


/-- Parameters of DonchianBreakoutBT (donchian_breakout.py, lines 82-86). -/
structure DonchianParams where
  lookback : Nat
  sim_start_date : Nat
deriving Repr, DecidableEq

/-- One invocation of DonchianBreakoutBT.next (donchian_breakout.py,
lines 98-157) at global bar index i: skip warmup bars, record equity only
while the channel window is not yet full, otherwise trade on the breakout
against the previous bar of the channel and record the mark-to-market
equity. The channel indicators bt.indicators.Highest and
bt.indicators.Lowest, read at the previous bar (index -1), are
third-party library code outside this repository; their per-bar values
are abstracted as the oracles prevHighest and prevLowest, on which none
of the verified properties depend. -/
def donchianBreakoutNext (p : DonchianParams) (prevHighest prevLowest : Nat → ℚ)
    (i : Nat) (c : Candle) (s : StratState) : StratState :=
  if c.ts < p.sim_start_date then s
  else
    let price := c.close
    if i + 1 < p.lookback then
      { s with equity_curve :=
          s.equity_curve ++ [{ date := c.ts, equity := s.cash + s.position * price }] }
    else
      let s1 :=
        if s.position = 0 then
          if price > prevHighest i then
            let size := if price > 0 then s.cash / price else 0
            if size > 0 then
              { s with cash := s.cash - size * price
                       position := size
                       entry_price := price
                       trades_log := s.trades_log ++
                         [{ date := c.ts, type := "buy", price := price,
                            quantity := size, profit_loss := 0 }] }
            else s
          else s
        else
          if price < prevLowest i then
            let size := s.position
            let pnl := (price - s.entry_price) * size
            { s with cash := s.cash + size * price
                     position := 0
                     entry_price := 0
                     trades_log := s.trades_log ++
                       [{ date := c.ts, type := "sell", price := price,
                          quantity := size, profit_loss := pnl }] }
          else s
      { s1 with equity_curve :=
          s1.equity_curve ++ [{ date := c.ts, equity := s1.cash + s1.position * price }] }

/-- The cerebro loop driving DonchianBreakoutBT. -/
def donchianLoop (p : DonchianParams) (prevHighest prevLowest : Nat → ℚ)
    (i : Nat) (s : StratState) : List Candle → StratState
  | [] => s
  | c :: rest =>
      donchianLoop p prevHighest prevLowest (i + 1)
        (donchianBreakoutNext p prevHighest prevLowest i c s) rest

/-- The full DonchianBreakoutBT simulation over a candle feed. -/
def donchianBreakoutRun (p : DonchianParams) (prevHighest prevLowest : Nat → ℚ)
    (candles : List Candle) (initial_capital : ℚ) : StratState :=
  donchianLoop p prevHighest prevLowest 0
    { cash := initial_capital, position := 0, entry_price := 0,
      trades_log := [], equity_curve := [] } candles

/-- Parameters of TimeSeriesMomentumBT (time_series_momentum.py,
lines 82-86). -/
structure TsmParams where
  momentum_period : Nat
  sim_start_date : Nat
deriving Repr, DecidableEq

/-- One invocation of TimeSeriesMomentumBT.next (time_series_momentum.py,
lines 96-150) at global bar index i: skip warmup bars, record equity only
while the momentum window is not yet full, otherwise buy on positive and
sell on negative rate of change and record the mark-to-market equity. The
indicator bt.indicators.ROC is third-party library code outside this
repository; its per-bar value is abstracted as the oracle rocAt, on
which none of the verified properties depend. -/
def timeSeriesMomentumNext (p : TsmParams) (rocAt : Nat → ℚ)
    (i : Nat) (c : Candle) (s : StratState) : StratState :=
  if c.ts < p.sim_start_date then s
  else
    let price := c.close
    if i + 1 < p.momentum_period then
      { s with equity_curve :=
          s.equity_curve ++ [{ date := c.ts, equity := s.cash + s.position * price }] }
    else
      let roc_val := rocAt i
      let s1 :=
        if s.position = 0 then
          if roc_val > 0 then
            let size := if price > 0 then s.cash / price else 0
            if size > 0 then
              { s with cash := s.cash - size * price
                       position := size
                       entry_price := price
                       trades_log := s.trades_log ++
                         [{ date := c.ts, type := "buy", price := price,
                            quantity := size, profit_loss := 0 }] }
            else s
          else s
        else
          if roc_val < 0 then
            let size := s.position
            let pnl := (price - s.entry_price) * size
            { s with cash := s.cash + size * price
                     position := 0
                     entry_price := 0
                     trades_log := s.trades_log ++
                       [{ date := c.ts, type := "sell", price := price,
                          quantity := size, profit_loss := pnl }] }
          else s
      { s1 with equity_curve :=
          s1.equity_curve ++ [{ date := c.ts, equity := s1.cash + s1.position * price }] }

/-- The cerebro loop driving TimeSeriesMomentumBT. -/
def tsmLoop (p : TsmParams) (rocAt : Nat → ℚ) (i : Nat) (s : StratState) :
    List Candle → StratState
  | [] => s
  | c :: rest =>
      tsmLoop p rocAt (i + 1) (timeSeriesMomentumNext p rocAt i c s) rest

/-- The full TimeSeriesMomentumBT simulation over a candle feed. -/
def timeSeriesMomentumRun (p : TsmParams) (rocAt : Nat → ℚ)
    (candles : List Candle) (initial_capital : ℚ) : StratState :=
  tsmLoop p rocAt 0
    { cash := initial_capital, position := 0, entry_price := 0,
      trades_log := [], equity_curve := [] } candles

/-- Final-state shape shared by the signal strategies, which have no
forced liquidation at the last bar: a flat run leaves a fully closed
buy-sell paired log with equal counts, and a long run leaves such a
paired log followed by a single unmatched buy carrying the open position
and entry price, so the buy count exceeds the sell count by one. -/
def endsPaired (s : StratState) : Prop :=
  (s.position = 0 →
      closedPaired s.trades_log ∧
      countSide s.trades_log "buy" = countSide s.trades_log "sell") ∧
  (0 < s.position →
      countSide s.trades_log "buy" = countSide s.trades_log "sell" + 1 ∧
      ∃ pre d, closedPaired pre ∧
        s.trades_log = pre ++ [Trade.mk d "buy" s.entry_price s.position 0])
theorem ite_gt_eq_max (a b : ℚ) : (if b > a then b else a) = max a b := by
  rcases le_or_lt b a with h | h
  · simp [not_lt.mpr h, max_eq_left h]
  · simp [h, max_eq_right h.le]

theorem drawdownStep_eq (P M : ℚ) (p : EquityPoint) :
    drawdownStep (P, M) p = (max P p.equity, max M (ddOfPair (max P p.equity, p.equity))) := by
  unfold drawdownStep ddOfPair
  simp only [ite_gt_eq_max]
  rcases eq_or_ne (max P p.equity) 0 with h | h
  · simp [h, ite_gt_eq_max]
  · simp [h, ite_gt_eq_max]

theorem drawdown_foldl_eq (curve : List EquityPoint) :
    ∀ (P M : ℚ), 0 ≤ M →
      (curve.foldl drawdownStep (P, M)).2 =
        max M (((peaksWith P (curve.map EquityPoint.equity)).map ddOfPair).foldr max 0) := by
  induction curve with
  | nil => intro P M hM; simp [peaksWith, max_eq_left hM]
  | cons p rest ih =>
      intro P M hM
      simp only [List.foldl_cons, List.map_cons, peaksWith, List.foldr_cons]
      rw [drawdownStep_eq, ih _ _ (le_trans hM (le_max_left _ _))]
      rw [max_assoc]

theorem foldr_max_nonneg (l : List ℚ) : 0 ≤ l.foldr max 0 := by
  induction l with
  | nil => simp
  | cons x xs ih => simpa using Or.inr ih

theorem foldr_max_le (l : List ℚ) (b : ℚ) (hb : 0 ≤ b)
    (h : ∀ x ∈ l, x ≤ b) : l.foldr max 0 ≤ b := by
  induction l with
  | nil => simpa
  | cons x xs ih =>
      simp only [List.foldr_cons, max_le_iff]
      exact ⟨h x (by simp), ih (fun y hy => h y (by simp [hy]))⟩

theorem le_foldr_max (l : List ℚ) (x : ℚ) (hx : x ∈ l) : x ≤ l.foldr max 0 := by
  induction l with
  | nil => simp at hx
  | cons y ys ih =>
      rcases List.mem_cons.mp hx with hx | hx
      · subst hx; simp
      · exact le_trans (ih hx) (by simp)

theorem peaksWith_snd_le_fst (es : List ℚ) :
    ∀ P, ∀ pe ∈ peaksWith P es, pe.2 ≤ pe.1 := by
  induction es with
  | nil => intro P pe h; simp [peaksWith] at h
  | cons e tl ih =>
      intro P pe h
      simp only [peaksWith, List.mem_cons] at h
      rcases h with h | h
      · subst h; exact le_max_right _ _
      · exact ih _ _ h

theorem peaksWith_dd_le_one (es : List ℚ) :
    ∀ P, (∀ e ∈ es, 0 ≤ e) → 0 ≤ P →
      ∀ pe ∈ peaksWith P es, ddOfPair pe ≤ 1 := by
  induction es with
  | nil => intro P _ _ pe h; simp [peaksWith] at h
  | cons e tl ih =>
      intro P hnn hP pe h
      simp only [peaksWith, List.mem_cons] at h
      rcases h with h | h
      · subst h
        unfold ddOfPair
        rcases eq_or_ne (max P e) 0 with h0 | h0
        · simp [h0]
        · have he : 0 ≤ e := hnn e (by simp)
          have hpk : 0 < max P e :=
            lt_of_le_of_ne (le_trans hP (le_max_left _ _)) (Ne.symm h0)
          simp only [h0, if_neg, if_false]
          rw [div_le_one hpk]
          exact sub_le_self _ he
      · exact ih _ (fun x hx => hnn x (by simp [hx]))
          (le_trans hP (le_max_left _ _)) _ h

theorem chain_dd_zero (es : List ℚ) :
    ∀ P, (∀ e ∈ es.head?, P ≤ e) → List.Chain' (· ≤ ·) es →
      ∀ pe ∈ peaksWith P es, ddOfPair pe = 0 := by
  induction es with
  | nil => intro P _ _ pe h; simp [peaksWith] at h
  | cons e tl ih =>
      intro P hPe hch pe h
      have hPe' : P ≤ e := hPe e (by simp)
      have hmax : max P e = e := max_eq_right hPe'
      simp only [peaksWith, List.mem_cons, hmax] at h
      rcases h with h | h
      · subst h
        unfold ddOfPair
        rcases eq_or_ne e 0 with h0 | h0
        · simp [h0]
        · simp [h0]
      · refine ih e ?_ hch.tail _ h
        intro x hx
        cases tl with
        | nil => simp at hx
        | cons y ys =>
            simp only [List.head?_cons, Option.mem_some_iff] at hx
            subst hx
            exact (List.chain'_cons.mp hch).1

theorem dd_zero_chain (es : List ℚ) :
    ∀ P, (∀ e ∈ es, 0 ≤ e) → 0 ≤ P →
      (∀ pe ∈ peaksWith P es, ddOfPair pe = 0) → List.Chain' (· ≤ ·) es := by
  induction es with
  | nil => intro _ _ _ _; simp
  | cons e tl ih =>
      intro P hnn hP hdd
      cases tl with
      | nil => simp
      | cons e2 tl2 =>
          have hQmem : (max (max P e) e2, e2) ∈ peaksWith P (e :: e2 :: tl2) := by
            simp [peaksWith]
          have hQ := hdd _ hQmem
          have he2 : 0 ≤ e2 := hnn e2 (by simp)
          have he : 0 ≤ e := hnn e (by simp)
          have hele : e ≤ e2 := by
            unfold ddOfPair at hQ
            rcases eq_or_ne (max (max P e) e2) 0 with h0 | h0
            · have h1 : e ≤ (0 : ℚ) := by
                calc e ≤ max (max P e) e2 :=
                      le_trans (le_max_right P e) (le_max_left _ _)
                  _ = 0 := h0
              have h2 : e = 0 := le_antisymm h1 he
              rw [h2]; exact he2
            · simp only [h0, if_neg, if_false] at hQ
              have hq2 : max (max P e) e2 - e2 = 0 := by
                have := div_eq_zero_iff.mp hQ
                tauto
              have : max (max P e) e2 = e2 := by linarith
              calc e ≤ max (max P e) e2 :=
                    le_trans (le_max_right P e) (le_max_left _ _)
                _ = e2 := this
          refine List.chain'_cons.mpr ⟨hele, ?_⟩
          refine ih (max P e) (fun x hx => hnn x (by simp [hx]))
            (le_trans hP (le_max_left _ _)) ?_
          intro pe hpe
          refine hdd pe ?_
          have hunf : peaksWith P (e :: e2 :: tl2) =
              (max P e, e) :: peaksWith (max P e) (e2 :: tl2) := rfl
          rw [hunf]
          exact List.mem_cons_of_mem _ hpe

theorem compute_eq_spec_max_drawdown (curve : List EquityPoint) :
    compute_max_drawdown curve = spec_max_drawdown curve := by
  cases curve with
  | nil => simp [compute_max_drawdown, spec_max_drawdown, peaksWith]
  | cons p rest =>
      have h1 : compute_max_drawdown (p :: rest) =
          ((p :: rest).foldl drawdownStep (p.equity, 0)).2 := rfl
      rw [h1, drawdown_foldl_eq _ _ _ le_rfl]
      simp only [spec_max_drawdown, List.map_cons, List.headD_cons]
      exact max_eq_right (foldr_max_nonneg _)

theorem peaksWith_dd_nonneg (es : List ℚ) :
    ∀ P, (∀ e ∈ es, 0 ≤ e) → 0 ≤ P →
      ∀ pe ∈ peaksWith P es, 0 ≤ ddOfPair pe := by
  induction es with
  | nil => intro P _ _ pe h; simp [peaksWith] at h
  | cons e tl ih =>
      intro P hnn hP pe h
      simp only [peaksWith, List.mem_cons] at h
      rcases h with h | h
      · subst h
        unfold ddOfPair
        rcases eq_or_ne (max P e) 0 with h0 | h0
        · simp [h0]
        · have hpk : 0 < max P e :=
            lt_of_le_of_ne (le_trans hP (le_max_left _ _)) (Ne.symm h0)
          simp only [h0, if_neg, if_false]
          exact div_nonneg (by simp [le_max_right]) hpk.le
      · exact ih _ (fun x hx => hnn x (by simp [hx]))
          (le_trans hP (le_max_left _ _)) _ h

theorem max_drawdown_nonneg (curve : List EquityPoint) :
    0 ≤ compute_max_drawdown curve := by
  rw [compute_eq_spec_max_drawdown]
  exact foldr_max_nonneg _

theorem headD_equity_nonneg (curve : List EquityPoint)
    (h : ∀ p ∈ curve, 0 ≤ p.equity) :
    0 ≤ (curve.map EquityPoint.equity).headD 0 := by
  cases curve with
  | nil => simp
  | cons p rest => simpa using h p (by simp)

theorem max_drawdown_le_one (curve : List EquityPoint)
    (h : ∀ p ∈ curve, 0 ≤ p.equity) : compute_max_drawdown curve ≤ 1 := by
  rw [compute_eq_spec_max_drawdown]
  unfold spec_max_drawdown
  refine foldr_max_le _ _ zero_le_one ?_
  intro x hx
  simp only [List.mem_map] at hx
  obtain ⟨pe, hpe, rfl⟩ := hx
  refine peaksWith_dd_le_one _ _ ?_ (headD_equity_nonneg _ h) _ hpe
  intro e he
  simp only [List.mem_map] at he
  obtain ⟨p, hp, rfl⟩ := he
  exact h p hp

theorem max_drawdown_zero_of_chain (curve : List EquityPoint)
    (h : List.Chain' (fun a b => a.equity ≤ b.equity) curve) :
    compute_max_drawdown curve = 0 := by
  rw [compute_eq_spec_max_drawdown]
  unfold spec_max_drawdown
  refine le_antisymm ?_ (foldr_max_nonneg _)
  refine foldr_max_le _ _ le_rfl ?_
  intro x hx
  simp only [List.mem_map] at hx
  obtain ⟨pe, hpe, rfl⟩ := hx
  refine le_of_eq (chain_dd_zero _ _ ?_ ?_ _ hpe)
  · intro e he
    cases curve with
    | nil => simp at he
    | cons p rest =>
        simp only [List.map_cons, List.head?_cons, Option.mem_some_iff] at he ⊢
        subst he; simp
  · exact (List.chain'_map EquityPoint.equity).mpr h

theorem chain_of_max_drawdown_zero (curve : List EquityPoint)
    (hnn : ∀ p ∈ curve, 0 ≤ p.equity) (h0 : compute_max_drawdown curve = 0) :
    List.Chain' (fun a b => a.equity ≤ b.equity) curve := by
  rw [compute_eq_spec_max_drawdown] at h0
  unfold spec_max_drawdown at h0
  have hnn' : ∀ e ∈ curve.map EquityPoint.equity, 0 ≤ e := by
    intro e he
    simp only [List.mem_map] at he
    obtain ⟨p, hp, rfl⟩ := he
    exact hnn p hp
  refine (List.chain'_map EquityPoint.equity).mp ?_
  refine dd_zero_chain _ _ hnn' (headD_equity_nonneg _ hnn) ?_
  intro pe hpe
  have hle : ddOfPair pe ≤ 0 := by
    rw [← h0]
    exact le_foldr_max _ _ (List.mem_map_of_mem _ hpe)
  exact le_antisymm hle
    (peaksWith_dd_nonneg _ _ hnn' (headD_equity_nonneg _ hnn) _ hpe)

/-- C3 (amended): compute_max_drawdown is the maximum over points of the
per-point drawdown against the running peak (0 when the peak is 0), it is
0 for an empty or single-point curve, it is always nonnegative, and it is
0 whenever the curve is non-decreasing; when every equity of the curve is
nonnegative (as for every curve the engine produces) the value moreover
lies in [0, 1] and is 0 exactly when the curve is non-decreasing. The
unrestricted claim fails on curves with negative equities. -/
theorem max_drawdown_props :
    (∀ curve : List EquityPoint,
        compute_max_drawdown curve = spec_max_drawdown curve) ∧
    compute_max_drawdown [] = 0 ∧
    (∀ p : EquityPoint, compute_max_drawdown [p] = 0) ∧
    (∀ curve : List EquityPoint, 0 ≤ compute_max_drawdown curve) ∧
    (∀ curve : List EquityPoint, (∀ p ∈ curve, 0 ≤ p.equity) →
        compute_max_drawdown curve ≤ 1) ∧
    (∀ curve : List EquityPoint,
        List.Chain' (fun a b => a.equity ≤ b.equity) curve →
        compute_max_drawdown curve = 0) ∧
    (∀ curve : List EquityPoint, (∀ p ∈ curve, 0 ≤ p.equity) →
        compute_max_drawdown curve = 0 →
        List.Chain' (fun a b => a.equity ≤ b.equity) curve) := by
  refine ⟨compute_eq_spec_max_drawdown, rfl, ?_, max_drawdown_nonneg,
    max_drawdown_le_one, max_drawdown_zero_of_chain, chain_of_max_drawdown_zero⟩
  intro p
  exact max_drawdown_zero_of_chain [p] (by simp)

/-- C3 counterexample: on the two-point curve 1, -1 the drawdown is 2,
outside [0, 1]; and on the decreasing curve 0, -1 the drawdown is 0, so
without a nonnegativity restriction neither the [0, 1] bound nor the
only-if direction of the zero-iff-non-decreasing sentence holds. -/
theorem max_drawdown_cx :
    compute_max_drawdown [⟨0, 1⟩, ⟨1, -1⟩] = 2 ∧
    ¬ compute_max_drawdown [⟨0, 1⟩, ⟨1, -1⟩] ≤ 1 ∧
    compute_max_drawdown [⟨0, 0⟩, ⟨1, -1⟩] = 0 ∧
    ¬ List.Chain' (fun a b => a.equity ≤ b.equity)
        [(⟨0, 0⟩ : EquityPoint), ⟨1, -1⟩] := by
  refine ⟨by norm_num [compute_max_drawdown, drawdownStep],
    by norm_num [compute_max_drawdown, drawdownStep],
    by norm_num [compute_max_drawdown, drawdownStep],
    by norm_num [List.chain'_cons, List.chain'_singleton]⟩

theorem max_drawdown_props_witness :
    compute_max_drawdown [⟨0, 5⟩, ⟨1, 7⟩] ≤ 1 ∧
    compute_max_drawdown [⟨0, 5⟩, ⟨1, 7⟩] = 0 :=
  ⟨max_drawdown_props.2.2.2.2.1 _ (by norm_num),
   max_drawdown_props.2.2.2.2.2.1 _
     (by norm_num [List.chain'_cons, List.chain'_singleton])⟩

theorem sharpeVar_nonneg (rs : List ℚ) : 0 ≤ sharpeVar rs := by
  unfold sharpeVar
  apply div_nonneg
  · apply List.sum_nonneg
    intro x hx
    simp only [List.mem_map] at hx
    obtain ⟨r, _, rfl⟩ := hx
    positivity
  · positivity

theorem sharpeClip_bounds (x : ℝ) : -5 ≤ sharpeClip x ∧ sharpeClip x ≤ 5 := by
  unfold sharpeClip
  split_ifs with h1 h2
  · norm_num
  · norm_num
  · exact ⟨not_lt.mp h2, not_lt.mp h1⟩

theorem compute_sharpe_cases (curve : List EquityPoint) :
    compute_sharpe curve = 0 ∨ ∃ x, compute_sharpe curve = sharpeClip x := by
  simp only [compute_sharpe]
  split_ifs
  · exact Or.inl rfl
  · exact Or.inl rfl
  · exact Or.inl rfl
  · exact Or.inr ⟨_, rfl⟩

/-- C4: compute_sharpe is 0 when the curve has fewer than two points,
when fewer than two valid returns remain after skipping zero-previous
pairs, or when the variance (hence the standard deviation) of the returns
is 0; otherwise it is mean over standard deviation, annualized by the
square root of 252 and clipped to [-5, 5]; and in every case the value
lies in [-5, 5]. -/
theorem sharpe_props (curve : List EquityPoint) :
    (curve.length < 2 → compute_sharpe curve = 0) ∧
    ((sharpeReturns curve).length < 2 → compute_sharpe curve = 0) ∧
    (sharpeVar (sharpeReturns curve) = 0 → compute_sharpe curve = 0) ∧
    (2 ≤ curve.length → 2 ≤ (sharpeReturns curve).length →
      sharpeVar (sharpeReturns curve) ≠ 0 →
      compute_sharpe curve =
        sharpeClip ((((sharpeMean (sharpeReturns curve) : ℚ) : ℝ) /
          Real.sqrt ((sharpeVar (sharpeReturns curve) : ℚ) : ℝ)) * Real.sqrt 252)) ∧
    (-5 ≤ compute_sharpe curve ∧ compute_sharpe curve ≤ 5) := by
  refine ⟨?_, ?_, ?_, ?_, ?_⟩
  · intro h; simp [compute_sharpe, h]
  · intro h
    by_cases h1 : curve.length < 2
    · simp [compute_sharpe, h1]
    · simp [compute_sharpe, h1, h]
  · intro hv
    by_cases h1 : curve.length < 2
    · simp [compute_sharpe, h1]
    · by_cases h2 : (sharpeReturns curve).length < 2
      · simp [compute_sharpe, h1, h2]
      · simp [compute_sharpe, h1, h2, hv]
  · intro hl hr hv
    have hvpos : (0 : ℚ) < sharpeVar (sharpeReturns curve) :=
      lt_of_le_of_ne (sharpeVar_nonneg _) (Ne.symm hv)
    have hstd : Real.sqrt ((sharpeVar (sharpeReturns curve) : ℚ) : ℝ) ≠ 0 := by
      refine ne_of_gt (Real.sqrt_pos.mpr ?_)
      exact_mod_cast hvpos
    simp [compute_sharpe, not_lt.mpr hl, not_lt.mpr hr, hstd]
  · rcases compute_sharpe_cases curve with h | ⟨x, h⟩
    · rw [h]; norm_num
    · rw [h]; exact sharpeClip_bounds x

theorem sharpe_props_witness :
    compute_sharpe [] = 0 ∧
    compute_sharpe [⟨0, 1⟩, ⟨1, 2⟩, ⟨2, 1⟩] =
      sharpeClip ((((sharpeMean (sharpeReturns [⟨0, 1⟩, ⟨1, 2⟩, ⟨2, 1⟩]) : ℚ) : ℝ) /
        Real.sqrt ((sharpeVar (sharpeReturns [⟨0, 1⟩, ⟨1, 2⟩, ⟨2, 1⟩]) : ℚ) : ℝ)) *
        Real.sqrt 252) :=
  ⟨(sharpe_props []).1 (by norm_num),
   (sharpe_props _).2.2.2.1 (by norm_num)
     (by norm_num [sharpeReturns])
     (by norm_num [sharpeVar, sharpeMean, sharpeReturns])⟩

/-- C8: get_algorithm_fn resolves every registered id, hidden ones
included (market_benchmark in particular), and fails with the
unknown-algorithm error on every unregistered id, while
list_algorithm_definitions lists exactly the non-hidden specs, so the
hidden benchmark spec is resolvable but never listed. -/
theorem registry_resolution :
    (∀ s ∈ loadedSpecs, get_algorithm_fn s.id = .ok s.fn) ∧
    get_algorithm_fn "market_benchmark" = .ok .runMarketBenchmark ∧
    marketBenchmarkSpec ∈ loadedSpecs ∧ marketBenchmarkSpec.hidden = true ∧
    (∀ algorithm_id, (∀ s ∈ loadedSpecs, s.id ≠ algorithm_id) →
        get_algorithm_fn algorithm_id = .error (.unknownAlgorithm algorithm_id)) ∧
    list_algorithm_definitions =
      [definitionOf donchianSpec, definitionOf timeSeriesMomentumSpec] ∧
    "market_benchmark" ∉ list_algorithm_definitions.map AlgorithmDefinition.id := by
  refine ⟨?_, ?_, ?_, rfl, ?_, ?_, ?_⟩
  · intro s hs
    simp only [loadedSpecs, List.mem_cons, List.not_mem_nil, or_false] at hs
    rcases hs with rfl | rfl | rfl
    · rfl
    · rfl
    · rfl
  · rfl
  · simp [loadedSpecs]
  · intro aid h
    have h1 : donchianSpec.id ≠ aid := h _ (by simp [loadedSpecs])
    have h2 : marketBenchmarkSpec.id ≠ aid := h _ (by simp [loadedSpecs])
    have h3 : timeSeriesMomentumSpec.id ≠ aid := h _ (by simp [loadedSpecs])
    simp [get_algorithm_fn, loadedSpecs, List.find?_cons, beq_iff_eq, h1, h2, h3]
  · rfl
  · intro h
    simp only [list_algorithm_definitions, loadedSpecs] at h
    revert h
    decide

theorem registry_resolution_witness :
    get_algorithm_fn "sma_crossover" = .error (.unknownAlgorithm "sma_crossover") ∧
    get_algorithm_fn marketBenchmarkSpec.id = .ok marketBenchmarkSpec.fn :=
  ⟨registry_resolution.2.2.2.2.1 "sma_crossover" (by
      intro s hs
      simp only [loadedSpecs, List.mem_cons, List.not_mem_nil, or_false] at hs
      rcases hs with rfl | rfl | rfl
      · simp [donchianSpec]
      · simp [marketBenchmarkSpec]
      · simp [timeSeriesMomentumSpec]),
   registry_resolution.1 marketBenchmarkSpec (by simp [loadedSpecs])⟩

/-- C7: the crossover run fails with a parameter error whenever the fast
window is not strictly below the slow window or a window is nonpositive,
and the oscillator mean-reversion run fails with a parameter error
whenever the period is at most 1 or the thresholds do not satisfy
0 <= oversold < overbought <= 100; in each case the same error is
produced for every possible outcome of the candle load, so the failure
precedes any data fetch. -/
theorem param_validation_before_fetch :
    (∀ (load : Except BTError (List Candle)) (short_window long_window : Int)
        (start_date : Nat) (initial_capital : ℚ),
      (short_window ≤ 0 ∨ long_window ≤ 0 ∨ long_window ≤ short_window) →
      ∃ msg, run_sma_crossover load short_window long_window start_date
          initial_capital = .error (.paramError msg)) ∧
    (∀ (load : Except BTError (List Candle)) (rsiAt : Nat → ℚ)
        (rsi_period : Int) (oversold overbought : ℚ)
        (start_date : Nat) (initial_capital : ℚ),
      (rsi_period ≤ 1 ∨
        ¬(0 ≤ oversold ∧ oversold < overbought ∧ overbought ≤ 100)) →
      ∃ msg, run_rsi_reversion load rsiAt rsi_period oversold overbought
          start_date initial_capital = .error (.paramError msg)) := by
  constructor
  · intro load sw lw sd cap h
    unfold run_sma_crossover
    by_cases h1 : sw ≤ 0 ∨ lw ≤ 0
    · exact ⟨_, by rw [if_pos h1]⟩
    · have h2 : sw ≥ lw := by
        push_neg at h1
        rcases h with h | h | h
        · exact absurd h (not_le.mpr h1.1)
        · exact absurd h (not_le.mpr h1.2)
        · exact h
      exact ⟨_, by rw [if_neg h1, if_pos h2]⟩
  · intro load rsiAt period os ob sd cap h
    unfold run_rsi_reversion
    by_cases h1 : period ≤ 1
    · exact ⟨_, by rw [if_pos h1]⟩
    · have h2 : ¬(0 ≤ os ∧ os < ob ∧ ob ≤ 100) := by tauto
      exact ⟨_, by rw [if_neg h1, if_pos h2]⟩

theorem param_validation_before_fetch_witness :
    (∃ msg, run_sma_crossover (.error .dataNotFound) 50 20 0 1000 =
        .error (.paramError msg)) ∧
    (∃ msg, run_rsi_reversion (.ok []) (fun _ => 50) 14 70 30 0 1000 =
        .error (.paramError msg)) :=
  ⟨param_validation_before_fetch.1 _ 50 20 0 1000 (by norm_num),
   param_validation_before_fetch.2 _ _ 14 70 30 0 1000 (by norm_num)⟩

/-- C10: run_market_benchmark divides the capital by the first close with
no zero guard, so a candle list whose first close is 0 produces the
division-by-zero error instead of a result bundle, while run_buy_and_hold
guards that division and returns a flat curve at the initial capital and
no trades. -/
theorem market_zero_first_close (first : Candle) (rest : List Candle)
    (start_date : Nat) (C : ℚ) (h0 : first.close = 0) :
    run_market_benchmark (first :: rest) C = .error .zeroDivision ∧
    (run_buy_and_hold (first :: rest) start_date C).toOption.map
        (fun r => (r.trades, r.equity_curve, r.final_equity)) =
      some ([], (first :: rest).map
        (fun c => ({ date := c.ts, equity := C } : EquityPoint)), C) := by
  constructor
  · simp [run_market_benchmark, h0]
  · have hsize : ¬ (0 : ℚ) < C / first.close := by
      rw [h0, div_zero]
      exact lt_irrefl 0
    simp only [run_buy_and_hold, h0]
    norm_num [assembleResult]
    exact ⟨_, rfl, rfl, rfl, rfl⟩

theorem market_zero_first_close_witness :
    run_market_benchmark [⟨0, 0, 0, 0, 0, 0⟩] 1000 = .error .zeroDivision ∧
    (run_buy_and_hold [⟨0, 0, 0, 0, 0, 0⟩] 0 1000).toOption.map
        (fun r => (r.trades, r.equity_curve, r.final_equity)) =
      some ([], [{ date := 0, equity := 1000 }], 1000) := by
  have h := market_zero_first_close ⟨0, 0, 0, 0, 0, 0⟩ [] 0 1000 rfl
  simpa using h

/-- C6 (amended): over a strictly increasing close series whose first
close is positive, with positive initial capital C (the engine assumes a
positive capital from its caller), Buy and Hold emits exactly one buy at
the first close with quantity C divided by the first close and zero
profit_loss, and exactly one sell at the last close, with final equity
C times the ratio of last to first close and total return that ratio
minus one. The unrestricted claim fails when the first close is 0. -/
theorem buy_and_hold_increasing (first : Candle) (rest : List Candle)
    (start_date : Nat) (C : ℚ) (hC : 0 < C) (hfc : 0 < first.close)
    (hinc : List.Chain' (fun a b => a.close < b.close) (first :: rest)) :
    (run_buy_and_hold (first :: rest) start_date C).toOption.map
        (fun r => (r.trades, r.final_equity, r.total_return)) =
      some
        ([{ date := first.ts, type := "buy", price := first.close,
            quantity := C / first.close, profit_loss := 0 },
          { date := ((first :: rest).getLastD first).ts, type := "sell",
            price := ((first :: rest).getLastD first).close,
            quantity := C / first.close,
            profit_loss :=
              C * (((first :: rest).getLastD first).close / first.close) - C }],
         C * (((first :: rest).getLastD first).close / first.close),
         ((first :: rest).getLastD first).close / first.close - 1) := by
  have hsize : (0 : ℚ) < C / first.close := div_pos hC hfc
  have hfe : C / first.close * ((first :: rest).getLastD first).close =
      C * (((first :: rest).getLastD first).close / first.close) := by
    field_simp
  have htr : totalReturnOf
      (C * (((first :: rest).getLastD first).close / first.close)) C =
      ((first :: rest).getLastD first).close / first.close - 1 := by
    unfold totalReturnOf
    rw [if_pos hC.ne']
    congr 1
    rw [mul_comm C _, mul_div_assoc, div_self hC.ne', mul_one]
  simp only [run_buy_and_hold, hfc, hsize, if_true, ite_true]
  norm_num [List.getLastD_eq_getLast?] at hfe htr ⊢
  refine ⟨_, rfl, ?_, ?_, ?_⟩
  · simp [assembleResult, hfe]
  · exact hfe
  · rw [hfe, htr]

/-- C6 counterexample: the closes 0, 1 are strictly increasing and the
capital 1000 is positive, yet Buy and Hold emits no trade at all (the
entry guard rejects the zero first close) and the final equity stays
1000, so the unrestricted claim fails. -/
theorem buy_and_hold_cx :
    List.Chain' (fun a b => a.close < b.close)
      [(⟨0, 0, 0, 0, 0, 0⟩ : Candle), ⟨1, 1, 1, 1, 1, 0⟩] ∧
    (run_buy_and_hold [⟨0, 0, 0, 0, 0, 0⟩, ⟨1, 1, 1, 1, 1, 0⟩] 0 1000).toOption.map
        (fun r => (r.trades, r.final_equity)) = some ([], 1000) := by
  constructor
  · norm_num [List.chain'_cons, List.chain'_singleton]
  · norm_num [run_buy_and_hold, assembleResult]
    exact ⟨_, rfl, rfl, rfl⟩

theorem buy_and_hold_increasing_witness :
    (run_buy_and_hold
        [(⟨0, 10, 10, 10, 10, 0⟩ : Candle), ⟨1, 20, 20, 20, 20, 0⟩] 0 1000).toOption.map
        (fun r => (r.trades, r.final_equity, r.total_return)) =
      some
        ([{ date := 0, type := "buy", price := 10, quantity := 100, profit_loss := 0 },
          { date := 1, type := "sell", price := 20, quantity := 100, profit_loss := 1000 }],
         2000, 1) := by
  have h := buy_and_hold_increasing ⟨0, 10, 10, 10, 10, 0⟩ [⟨1, 20, 20, 20, 20, 0⟩]
    0 1000 (by norm_num) (by norm_num)
    (by norm_num [List.chain'_cons, List.chain'_singleton])
  rw [h]
  norm_num [List.getLastD]

theorem closedPaired_append_pair : ∀ (l : List Trade), closedPaired l →
    ∀ b s : Trade, b.type = "buy" → s.type = "sell" →
    s.quantity = b.quantity →
    s.profit_loss = (s.price - b.price) * s.quantity →
    closedPaired (l ++ [b, s])
  | [], _, b, s, hb, hs, hq, hp => ⟨hb, hs, hq, hp, trivial⟩
  | [x], hl, _, _, _, _, _, _ => absurd hl (by simp [closedPaired])
  | x :: y :: tl, hl, b, s, hb, hs, hq, hp =>
      ⟨hl.1, hl.2.1, hl.2.2.1, hl.2.2.2.1,
        closedPaired_append_pair tl hl.2.2.2.2 b s hb hs hq hp⟩

theorem countSide_append (l1 l2 : List Trade) (side : String) :
    countSide (l1 ++ l2) side = countSide l1 side + countSide l2 side := by
  unfold countSide
  rw [List.filter_append, List.length_append]

theorem closedPaired_counts : ∀ l : List Trade, closedPaired l →
    countSide l "buy" = countSide l "sell"
  | [], _ => rfl
  | [x], hl => absurd hl (by simp [closedPaired])
  | b :: s :: tl, hl => by
      obtain ⟨hb, hs, _, _, htl⟩ := hl
      have hsb : s.type ≠ "buy" := by rw [hs]; decide
      have hbs : b.type ≠ "sell" := by rw [hb]; decide
      have hrec := closedPaired_counts tl htl
      simp [countSide, List.filter_cons, hb, hs, hsb, hbs] at hrec ⊢
      omega

theorem smaNext_inv (p : SmaParams) (closes : List ℚ) (i : Nat) (c : Candle)
    (s : StratState)
    (h : (s.position = 0 ∧ closedPaired s.trades_log) ∨
      (0 < s.position ∧ ∃ pre d, closedPaired pre ∧
        s.trades_log = pre ++ [Trade.mk d "buy" s.entry_price s.position 0])) :
    ((smaCrossoverNext p closes i c s).position = 0 ∧
        closedPaired (smaCrossoverNext p closes i c s).trades_log) ∨
      (0 < (smaCrossoverNext p closes i c s).position ∧ ∃ pre d, closedPaired pre ∧
        (smaCrossoverNext p closes i c s).trades_log = pre ++
          [Trade.mk d "buy" (smaCrossoverNext p closes i c s).entry_price
            (smaCrossoverNext p closes i c s).position 0]) := by
  unfold smaCrossoverNext
  by_cases h1 : c.ts < p.sim_start_date
  · simpa [h1] using h
  · by_cases h2 : i + 1 < p.long_window
    · simpa [h1, h2] using h
    · simp only [if_neg h1, if_neg h2]
      by_cases h3 : s.position = 0
      · rcases h with ⟨_, hcp⟩ | ⟨hpos, _⟩
        · by_cases h4 : smaAt closes p.short_window i > smaAt closes p.long_window i
          · by_cases h5 : (0 : ℚ) < (if c.close > 0 then s.cash / c.close else 0)
            · right
              refine ⟨by simpa [h3, h4, h5] using h5, s.trades_log, c.ts, hcp, ?_⟩
              simp [h3, h4, h5]
            · left
              simp [h3, h4, h5, hcp]
          · left
            simp [h3, h4, hcp]
        · exact absurd h3 (by simp [hpos.ne'])
      · rcases h with ⟨h0, _⟩ | ⟨hpos, pre, d, hcp, htr⟩
        · exact absurd h0 h3
        · by_cases h4 : smaAt closes p.short_window i < smaAt closes p.long_window i
          · left
            refine ⟨by simp [h3, h4], ?_⟩
            simp only [h3, if_neg, if_false, h4, if_true, ite_true]
            rw [htr, List.append_assoc]
            refine closedPaired_append_pair pre hcp _ _ rfl rfl rfl ?_
            simp
          · right
            refine ⟨by simpa [h3, h4] using hpos, pre, d, hcp, ?_⟩
            simp [h3, h4, htr]

theorem smaLoop_inv (p : SmaParams) (closes : List ℚ) :
    ∀ (candles : List Candle) (i : Nat) (s : StratState),
    ((s.position = 0 ∧ closedPaired s.trades_log) ∨
      (0 < s.position ∧ ∃ pre d, closedPaired pre ∧
        s.trades_log = pre ++ [Trade.mk d "buy" s.entry_price s.position 0])) →
    (((smaLoop p closes i s candles).position = 0 ∧
        closedPaired (smaLoop p closes i s candles).trades_log) ∨
      (0 < (smaLoop p closes i s candles).position ∧ ∃ pre d, closedPaired pre ∧
        (smaLoop p closes i s candles).trades_log = pre ++
          [Trade.mk d "buy" (smaLoop p closes i s candles).entry_price
            (smaLoop p closes i s candles).position 0]))
  | [], _, _, h => h
  | c :: rest, i, s, h =>
      smaLoop_inv p closes rest (i + 1) (smaCrossoverNext p closes i c s)
        (smaNext_inv p closes i c s h)


theorem donchianNext_inv (p : DonchianParams) (prevHighest prevLowest : Nat → ℚ)
    (i : Nat) (c : Candle) (s : StratState)
    (h : (s.position = 0 ∧ closedPaired s.trades_log) ∨
      (0 < s.position ∧ ∃ pre d, closedPaired pre ∧
        s.trades_log = pre ++ [Trade.mk d "buy" s.entry_price s.position 0])) :
    (((donchianBreakoutNext p prevHighest prevLowest i c s).position = 0 ∧
        closedPaired (donchianBreakoutNext p prevHighest prevLowest i c s).trades_log) ∨
      (0 < (donchianBreakoutNext p prevHighest prevLowest i c s).position ∧
        ∃ pre d, closedPaired pre ∧
        (donchianBreakoutNext p prevHighest prevLowest i c s).trades_log = pre ++
          [Trade.mk d "buy" (donchianBreakoutNext p prevHighest prevLowest i c s).entry_price
            (donchianBreakoutNext p prevHighest prevLowest i c s).position 0])) := by
  unfold donchianBreakoutNext
  by_cases h1 : c.ts < p.sim_start_date
  · simpa [h1] using h
  · by_cases h2 : i + 1 < p.lookback
    · simpa [h1, h2] using h
    · simp only [if_neg h1, if_neg h2]
      by_cases h3 : s.position = 0
      · rcases h with ⟨_, hcp⟩ | ⟨hpos, _⟩
        · by_cases h4 : c.close > prevHighest i
          · by_cases h5 : (0 : ℚ) < (if c.close > 0 then s.cash / c.close else 0)
            · right
              refine ⟨by simpa [h3, h4, h5] using h5, s.trades_log, c.ts, hcp, ?_⟩
              simp [h3, h4, h5]
            · left
              simp [h3, h4, h5, hcp]
          · left
            simp [h3, h4, hcp]
        · exact absurd h3 (by simp [hpos.ne'])
      · rcases h with ⟨h0, _⟩ | ⟨hpos, pre, d, hcp, htr⟩
        · exact absurd h0 h3
        · by_cases h4 : c.close < prevLowest i
          · left
            refine ⟨by simp [h3, h4], ?_⟩
            simp only [h3, if_neg, if_false, h4, if_true, ite_true]
            rw [htr, List.append_assoc]
            refine closedPaired_append_pair pre hcp _ _ rfl rfl rfl ?_
            simp
          · right
            refine ⟨by simpa [h3, h4] using hpos, pre, d, hcp, ?_⟩
            simp [h3, h4, htr]

theorem donchianLoop_inv (p : DonchianParams) (prevHighest prevLowest : Nat → ℚ) :
    ∀ (candles : List Candle) (i : Nat) (s : StratState),
    ((s.position = 0 ∧ closedPaired s.trades_log) ∨
      (0 < s.position ∧ ∃ pre d, closedPaired pre ∧
        s.trades_log = pre ++ [Trade.mk d "buy" s.entry_price s.position 0])) →
    (((donchianLoop p prevHighest prevLowest i s candles).position = 0 ∧
        closedPaired (donchianLoop p prevHighest prevLowest i s candles).trades_log) ∨
      (0 < (donchianLoop p prevHighest prevLowest i s candles).position ∧
        ∃ pre d, closedPaired pre ∧
        (donchianLoop p prevHighest prevLowest i s candles).trades_log = pre ++
          [Trade.mk d "buy" (donchianLoop p prevHighest prevLowest i s candles).entry_price
            (donchianLoop p prevHighest prevLowest i s candles).position 0]))
  | [], _, _, h => h
  | c :: rest, i, s, h =>
      donchianLoop_inv p prevHighest prevLowest rest (i + 1)
        (donchianBreakoutNext p prevHighest prevLowest i c s)
        (donchianNext_inv p prevHighest prevLowest i c s h)

theorem tsmNext_inv (p : TsmParams) (rocAt : Nat → ℚ)
    (i : Nat) (c : Candle) (s : StratState)
    (h : (s.position = 0 ∧ closedPaired s.trades_log) ∨
      (0 < s.position ∧ ∃ pre d, closedPaired pre ∧
        s.trades_log = pre ++ [Trade.mk d "buy" s.entry_price s.position 0])) :
    (((timeSeriesMomentumNext p rocAt i c s).position = 0 ∧
        closedPaired (timeSeriesMomentumNext p rocAt i c s).trades_log) ∨
      (0 < (timeSeriesMomentumNext p rocAt i c s).position ∧
        ∃ pre d, closedPaired pre ∧
        (timeSeriesMomentumNext p rocAt i c s).trades_log = pre ++
          [Trade.mk d "buy" (timeSeriesMomentumNext p rocAt i c s).entry_price
            (timeSeriesMomentumNext p rocAt i c s).position 0])) := by
  unfold timeSeriesMomentumNext
  by_cases h1 : c.ts < p.sim_start_date
  · simpa [h1] using h
  · by_cases h2 : i + 1 < p.momentum_period
    · simpa [h1, h2] using h
    · simp only [if_neg h1, if_neg h2]
      by_cases h3 : s.position = 0
      · rcases h with ⟨_, hcp⟩ | ⟨hpos, _⟩
        · by_cases h4 : rocAt i > 0
          · by_cases h5 : (0 : ℚ) < (if c.close > 0 then s.cash / c.close else 0)
            · right
              refine ⟨by simpa [h3, h4, h5] using h5, s.trades_log, c.ts, hcp, ?_⟩
              simp [h3, h4, h5]
            · left
              simp [h3, h4, h5, hcp]
          · left
            simp [h3, h4, hcp]
        · exact absurd h3 (by simp [hpos.ne'])
      · rcases h with ⟨h0, _⟩ | ⟨hpos, pre, d, hcp, htr⟩
        · exact absurd h0 h3
        · by_cases h4 : rocAt i < 0
          · left
            refine ⟨by simp [h3, h4], ?_⟩
            simp only [h3, if_neg, if_false, h4, if_true, ite_true]
            rw [htr, List.append_assoc]
            refine closedPaired_append_pair pre hcp _ _ rfl rfl rfl ?_
            simp
          · right
            refine ⟨by simpa [h3, h4] using hpos, pre, d, hcp, ?_⟩
            simp [h3, h4, htr]

theorem tsmLoop_inv (p : TsmParams) (rocAt : Nat → ℚ) :
    ∀ (candles : List Candle) (i : Nat) (s : StratState),
    ((s.position = 0 ∧ closedPaired s.trades_log) ∨
      (0 < s.position ∧ ∃ pre d, closedPaired pre ∧
        s.trades_log = pre ++ [Trade.mk d "buy" s.entry_price s.position 0])) →
    (((tsmLoop p rocAt i s candles).position = 0 ∧
        closedPaired (tsmLoop p rocAt i s candles).trades_log) ∨
      (0 < (tsmLoop p rocAt i s candles).position ∧
        ∃ pre d, closedPaired pre ∧
        (tsmLoop p rocAt i s candles).trades_log = pre ++
          [Trade.mk d "buy" (tsmLoop p rocAt i s candles).entry_price
            (tsmLoop p rocAt i s candles).position 0]))
  | [], _, _, h => h
  | c :: rest, i, s, h =>
      tsmLoop_inv p rocAt rest (i + 1) (timeSeriesMomentumNext p rocAt i c s)
        (tsmNext_inv p rocAt i c s h)

theorem endsPaired_of_inv (s : StratState)
    (h : (s.position = 0 ∧ closedPaired s.trades_log) ∨
      (0 < s.position ∧ ∃ pre d, closedPaired pre ∧
        s.trades_log = pre ++ [Trade.mk d "buy" s.entry_price s.position 0])) :
    endsPaired s := by
  rcases h with ⟨h0, hcp⟩ | ⟨hpos, pre, d, hcp, htr⟩
  · exact ⟨fun _ => ⟨hcp, closedPaired_counts _ hcp⟩,
      fun hlt => absurd h0 hlt.ne'⟩
  · refine ⟨fun h0 => absurd h0 hpos.ne', fun _ => ⟨?_, pre, d, hcp, htr⟩⟩
    rw [htr, countSide_append, countSide_append]
    have hb : countSide [Trade.mk d "buy" s.entry_price s.position 0] "buy" = 1 := by
      simp [countSide, List.filter_cons]
    have hs2 : countSide [Trade.mk d "buy" s.entry_price s.position 0] "sell" = 0 := by
      simp [countSide, List.filter_cons]
    rw [hb, hs2, closedPaired_counts pre hcp]

/-- C1 (amended): none of the signal strategies named by the claim
(crossover, channel breakout, time-series momentum) performs a forced
liquidation at the last bar. For every parameterization, every indicator
oracle and every candle feed, each run either ends flat with a trade log
of buy-sell pairs in which each sell closes its buy exactly (same
quantity, profit_loss equal to exit price minus entry price, times
quantity) and equally many buys and sells, or ends long with such a
paired log followed by one final unmatched buy, so the buy count exceeds
the sell count by one and no sell was emitted at the last bar. -/
theorem signal_strategies_trade_log_pairing (p : SmaParams)
    (dp : DonchianParams) (tp : TsmParams)
    (prevHighest prevLowest rocAt : Nat → ℚ)
    (candles : List Candle) (C : ℚ) :
    endsPaired (smaCrossoverRun p candles C) ∧
    endsPaired (donchianBreakoutRun dp prevHighest prevLowest candles C) ∧
    endsPaired (timeSeriesMomentumRun tp rocAt candles C) :=
  ⟨endsPaired_of_inv _
      (smaLoop_inv p (candles.map Candle.close) candles 0
        { cash := C, position := 0, entry_price := 0, trades_log := [],
          equity_curve := [] } (Or.inl ⟨rfl, trivial⟩)),
   endsPaired_of_inv _
      (donchianLoop_inv dp prevHighest prevLowest candles 0
        { cash := C, position := 0, entry_price := 0, trades_log := [],
          equity_curve := [] } (Or.inl ⟨rfl, trivial⟩)),
   endsPaired_of_inv _
      (tsmLoop_inv tp rocAt candles 0
        { cash := C, position := 0, entry_price := 0, trades_log := [],
          equity_curve := [] } (Or.inl ⟨rfl, trivial⟩))⟩

/-- C1 counterexample: with the valid windows 1 and 2, start date 0 and
capital 1000, the crossover run over the closes 1 then 2 processes its
last bar in the long state and emits no sell there: the run ends long
(position 500, not flat) and the log holds one buy and zero sells, so
the buy and sell counts differ and no forced liquidation happened. -/
theorem sma_no_forced_liquidation_cx :
    (smaCrossoverRun ⟨1, 2, 0⟩
        [⟨0, 1, 1, 1, 1, 0⟩, ⟨1, 2, 2, 2, 2, 0⟩] 1000).position = 500 ∧
    countSide (smaCrossoverRun ⟨1, 2, 0⟩
        [⟨0, 1, 1, 1, 1, 0⟩, ⟨1, 2, 2, 2, 2, 0⟩] 1000).trades_log "buy" = 1 ∧
    countSide (smaCrossoverRun ⟨1, 2, 0⟩
        [⟨0, 1, 1, 1, 1, 0⟩, ⟨1, 2, 2, 2, 2, 0⟩] 1000).trades_log "sell" = 0 := by
  norm_num [smaCrossoverRun, smaLoop, smaCrossoverNext, smaAt, countSide,
    List.filter_cons]
  decide

theorem signal_strategies_trade_log_pairing_witness :
    countSide (smaCrossoverRun ⟨1, 2, 0⟩
        [⟨0, 1, 1, 1, 1, 0⟩, ⟨1, 2, 2, 2, 2, 0⟩] 1000).trades_log "buy" =
      countSide (smaCrossoverRun ⟨1, 2, 0⟩
        [⟨0, 1, 1, 1, 1, 0⟩, ⟨1, 2, 2, 2, 2, 0⟩] 1000).trades_log "sell" + 1 ∧
    countSide (donchianBreakoutRun ⟨1, 0⟩ (fun _ => 0) (fun _ => 0)
        [⟨0, 1, 1, 1, 1, 0⟩, ⟨1, 2, 2, 2, 2, 0⟩] 1000).trades_log "buy" =
      countSide (donchianBreakoutRun ⟨1, 0⟩ (fun _ => 0) (fun _ => 0)
        [⟨0, 1, 1, 1, 1, 0⟩, ⟨1, 2, 2, 2, 2, 0⟩] 1000).trades_log "sell" + 1 := by
  have h := signal_strategies_trade_log_pairing ⟨1, 2, 0⟩ ⟨1, 0⟩ ⟨1, 0⟩
    (fun _ => 0) (fun _ => 0) (fun _ => 0)
    [⟨0, 1, 1, 1, 1, 0⟩, ⟨1, 2, 2, 2, 2, 0⟩] 1000
  refine ⟨(h.1.2 ?_).1, (h.2.1.2 ?_).1⟩
  · norm_num [smaCrossoverRun, smaLoop, smaCrossoverNext, smaAt]
  · norm_num [donchianBreakoutRun, donchianLoop, donchianBreakoutNext]

theorem smaNext_curve (p : SmaParams) (closes : List ℚ) (i : Nat) (c : Candle)
    (s : StratState) :
    (smaCrossoverNext p closes i c s).equity_curve =
      s.equity_curve ++
        (if p.sim_start_date ≤ c.ts then
          [EquityPoint.mk c.ts ((smaCrossoverNext p closes i c s).cash +
            (smaCrossoverNext p closes i c s).position * c.close)]
         else []) := by
  unfold smaCrossoverNext
  by_cases h1 : c.ts < p.sim_start_date
  · simp [h1, not_le.mpr h1]
  · have h1' := not_lt.mp h1
    by_cases h2 : i + 1 < p.long_window
    · simp [h1, h2, h1']
    · simp only [if_neg h1, if_neg h2, if_pos h1']
      split_ifs <;> simp

theorem smaLoop_curve (p : SmaParams) (closes : List ℚ) :
    ∀ (candles : List Candle) (i : Nat) (s : StratState),
    (smaLoop p closes i s candles).equity_curve =
      s.equity_curve ++
        ((smaScan p closes i s candles).filter
          (fun cs => p.sim_start_date ≤ cs.1.ts)).map
          (fun cs => EquityPoint.mk cs.1.ts (cs.2.cash + cs.2.position * cs.1.close))
  | [], i, s => by simp [smaLoop, smaScan]
  | c :: rest, i, s => by
      rw [smaLoop]
      rw [smaLoop_curve p closes rest (i + 1) (smaCrossoverNext p closes i c s)]
      simp only [smaScan]
      by_cases hoff : p.sim_start_date ≤ c.ts
      · rw [smaNext_curve, if_pos hoff]
        simp [hoff, List.filter_cons, List.append_assoc]
      · rw [smaNext_curve, if_neg hoff]
        simp [hoff, List.filter_cons]

theorem smaScan_filter_length (p : SmaParams) (closes : List ℚ) :
    ∀ (candles : List Candle) (i : Nat) (s : StratState),
    ((smaScan p closes i s candles).filter
        (fun cs => p.sim_start_date ≤ cs.1.ts)).length =
      (candles.filter (fun c => p.sim_start_date ≤ c.ts)).length
  | [], _, _ => rfl
  | c :: rest, i, s => by
      simp only [smaScan, List.filter_cons]
      by_cases hoff : p.sim_start_date ≤ c.ts <;>
        simp [hoff, smaScan_filter_length p closes rest]

theorem rsiNext_curve (p : RsiParams) (rsiAt : Nat → ℚ) (i : Nat) (c : Candle)
    (s : StratState) :
    (rsiReversionNext p rsiAt i c s).equity_curve =
      s.equity_curve ++
        (if p.sim_start_date ≤ c.ts then
          [EquityPoint.mk c.ts ((rsiReversionNext p rsiAt i c s).cash +
            (rsiReversionNext p rsiAt i c s).position * c.close)]
         else []) := by
  unfold rsiReversionNext
  by_cases h1 : c.ts < p.sim_start_date
  · simp [h1, not_le.mpr h1]
  · have h1' := not_lt.mp h1
    by_cases h2 : i + 1 < p.rsi_period
    · simp [h1, h2, h1']
    · simp only [if_neg h1, if_neg h2, if_pos h1']
      split_ifs <;> simp

theorem rsiLoop_curve (p : RsiParams) (rsiAt : Nat → ℚ) :
    ∀ (candles : List Candle) (i : Nat) (s : StratState),
    (rsiLoop p rsiAt i s candles).equity_curve =
      s.equity_curve ++
        ((rsiScan p rsiAt i s candles).filter
          (fun cs => p.sim_start_date ≤ cs.1.ts)).map
          (fun cs => EquityPoint.mk cs.1.ts (cs.2.cash + cs.2.position * cs.1.close))
  | [], i, s => by simp [rsiLoop, rsiScan]
  | c :: rest, i, s => by
      rw [rsiLoop]
      rw [rsiLoop_curve p rsiAt rest (i + 1) (rsiReversionNext p rsiAt i c s)]
      simp only [rsiScan]
      by_cases hoff : p.sim_start_date ≤ c.ts
      · rw [rsiNext_curve, if_pos hoff]
        simp [hoff, List.filter_cons, List.append_assoc]
      · rw [rsiNext_curve, if_neg hoff]
        simp [hoff, List.filter_cons]

theorem rsiScan_filter_length (p : RsiParams) (rsiAt : Nat → ℚ) :
    ∀ (candles : List Candle) (i : Nat) (s : StratState),
    ((rsiScan p rsiAt i s candles).filter
        (fun cs => p.sim_start_date ≤ cs.1.ts)).length =
      (candles.filter (fun c => p.sim_start_date ≤ c.ts)).length
  | [], _, _ => rfl
  | c :: rest, i, s => by
      simp only [rsiScan, List.filter_cons]
      by_cases hoff : p.sim_start_date ≤ c.ts <;>
        simp [hoff, rsiScan_filter_length p rsiAt rest]

theorem filter_interval_of_le_end (sd ed : Nat) (candles : List Candle)
    (hend : ∀ c ∈ candles, c.ts ≤ ed) :
    candles.filter (fun c => sd ≤ c.ts ∧ c.ts ≤ ed) =
      candles.filter (fun c => sd ≤ c.ts) := by
  induction candles with
  | nil => rfl
  | cons c rest ih =>
      have hc := hend c (by simp)
      simp only [List.filter_cons]
      rw [ih (fun x hx => hend x (by simp [hx]))]
      by_cases hoff : sd ≤ c.ts
      · simp [hoff, hc]
      · simp [hoff]

/-- C5: in both the crossover and the oscillator mean-reversion runs, the
equity curve holds exactly one point per bar whose date is at least the
start date (warmup bars contribute nothing), each dated by its bar and
valued at cash plus position times close of the state right after that
bar is processed, including the official-window bars on which the
indicator window is not yet full; consequently, when every bar is at most
the end date, the curve length equals the number of bars inside
[start_date, end_date]. -/
theorem equity_curve_per_official_bar (p : SmaParams) (q : RsiParams)
    (rsiAt : Nat → ℚ) (candles : List Candle) (C : ℚ) (end_date : Nat)
    (hend : ∀ c ∈ candles, c.ts ≤ end_date) :
    ((smaCrossoverRun p candles C).equity_curve =
      ((smaScan p (candles.map Candle.close) 0
          (StratState.mk C 0 0 [] []) candles).filter
        (fun cs => p.sim_start_date ≤ cs.1.ts)).map
        (fun cs => EquityPoint.mk cs.1.ts
          (cs.2.cash + cs.2.position * cs.1.close))) ∧
    ((smaCrossoverRun p candles C).equity_curve.length =
      (candles.filter (fun c => p.sim_start_date ≤ c.ts ∧ c.ts ≤ end_date)).length) ∧
    ((rsiReversionRun q rsiAt candles C).equity_curve =
      ((rsiScan q rsiAt 0 (StratState.mk C 0 0 [] []) candles).filter
        (fun cs => q.sim_start_date ≤ cs.1.ts)).map
        (fun cs => EquityPoint.mk cs.1.ts
          (cs.2.cash + cs.2.position * cs.1.close))) ∧
    ((rsiReversionRun q rsiAt candles C).equity_curve.length =
      (candles.filter (fun c => q.sim_start_date ≤ c.ts ∧ c.ts ≤ end_date)).length) := by
  have hsma : (smaCrossoverRun p candles C).equity_curve =
      ((smaScan p (candles.map Candle.close) 0
          (StratState.mk C 0 0 [] []) candles).filter
        (fun cs => p.sim_start_date ≤ cs.1.ts)).map
        (fun cs => EquityPoint.mk cs.1.ts
          (cs.2.cash + cs.2.position * cs.1.close)) := by
    have h := smaLoop_curve p (candles.map Candle.close) candles 0
      (StratState.mk C 0 0 [] [])
    simpa [smaCrossoverRun] using h
  have hrsi : (rsiReversionRun q rsiAt candles C).equity_curve =
      ((rsiScan q rsiAt 0 (StratState.mk C 0 0 [] []) candles).filter
        (fun cs => q.sim_start_date ≤ cs.1.ts)).map
        (fun cs => EquityPoint.mk cs.1.ts
          (cs.2.cash + cs.2.position * cs.1.close)) := by
    have h := rsiLoop_curve q rsiAt candles 0 (StratState.mk C 0 0 [] [])
    simpa [rsiReversionRun] using h
  refine ⟨hsma, ?_, hrsi, ?_⟩
  · rw [hsma, List.length_map, filter_interval_of_le_end _ _ _ hend]
    exact smaScan_filter_length p _ candles 0 _
  · rw [hrsi, List.length_map, filter_interval_of_le_end _ _ _ hend]
    exact rsiScan_filter_length q _ candles 0 _

theorem equity_curve_per_official_bar_witness :
    (smaCrossoverRun ⟨1, 2, 1⟩
        [⟨0, 1, 1, 1, 1, 0⟩, ⟨1, 2, 2, 2, 2, 0⟩, ⟨2, 3, 3, 3, 3, 0⟩] 1000).equity_curve.length =
      ([(⟨0, 1, 1, 1, 1, 0⟩ : Candle), ⟨1, 2, 2, 2, 2, 0⟩, ⟨2, 3, 3, 3, 3, 0⟩].filter
        (fun c => 1 ≤ c.ts ∧ c.ts ≤ 2)).length :=
  (equity_curve_per_official_bar ⟨1, 2, 1⟩ ⟨2, 30, 70, 1⟩ (fun _ => 50)
    [⟨0, 1, 1, 1, 1, 0⟩, ⟨1, 2, 2, 2, 2, 0⟩, ⟨2, 3, 3, 3, 3, 0⟩] 1000 2
    (by intro c hc; fin_cases hc <;> simp)).2.1

theorem omni_head (c : Candle) (l : List Candle) (cash pos entry : ℚ) :
    ((omniLoop cash pos entry (c :: l)).2).head? =
      some (EquityPoint.mk c.ts (cash + pos * c.close)) := by
  cases l with
  | nil =>
      unfold omniLoop
      split_ifs <;> simp [EquityPoint.mk.injEq] <;> ring
  | cons c2 rest =>
      unfold omniLoop
      by_cases h1 : pos = 0 ∧ c2.close > c.close
      · by_cases h2 : (0 : ℚ) < (if c.close > 0 then cash / c.close else 0)
        · simp [h1, h2, h1.1, EquityPoint.mk.injEq]
        · simp [h1, h2, h1.1, EquityPoint.mk.injEq]
      · by_cases h2 : 0 < pos ∧ c2.close < c.close
        · simp [h1, h2, EquityPoint.mk.injEq]
        · simp [h1, h2, EquityPoint.mk.injEq]

theorem omni_chain : ∀ (l : List Candle) (cash pos entry : ℚ), 0 ≤ pos →
    List.Chain' (fun a b => a.equity ≤ b.equity) (omniLoop cash pos entry l).2
  | [], _, _, _, _ => by simp [omniLoop]
  | [c], cash, pos, entry, hpos => by
      unfold omniLoop
      split_ifs <;> simp
  | c :: c2 :: rest, cash, pos, entry, hpos => by
      unfold omniLoop
      by_cases h1 : pos = 0 ∧ c2.close > c.close
      · simp only [h1, if_true, ite_true]
        by_cases h2 : (0 : ℚ) < (if c.close > 0 then cash / c.close else 0)
        · simp only [h2, if_true, ite_true]
          refine List.chain'_cons'.mpr ⟨?_, omni_chain (c2 :: rest) _ _ _ h2.le⟩
          intro y hy
          rw [omni_head] at hy
          simp only [Option.mem_some_iff] at hy
          subst hy
          simp only
          have := mul_le_mul_of_nonneg_left h1.2.le h2.le
          linarith
        · simp only [h2, if_false, ite_false]
          refine List.chain'_cons'.mpr ⟨?_, omni_chain (c2 :: rest) _ _ _ le_rfl⟩
          intro y hy
          rw [omni_head] at hy
          simp only [Option.mem_some_iff] at hy
          subst hy
          simp
      · simp only [h1, if_false, ite_false]
        by_cases h2 : 0 < pos ∧ c2.close < c.close
        · simp only [h2, if_true, ite_true]
          refine List.chain'_cons'.mpr ⟨?_, omni_chain (c2 :: rest) _ _ _ le_rfl⟩
          intro y hy
          rw [omni_head] at hy
          simp only [Option.mem_some_iff] at hy
          subst hy
          simp
        · simp only [h2, if_false, ite_false]
          refine List.chain'_cons'.mpr ⟨?_, omni_chain (c2 :: rest) _ _ _ hpos⟩
          intro y hy
          rw [omni_head] at hy
          simp only [Option.mem_some_iff] at hy
          subst hy
          simp only
          rcases eq_or_lt_of_le hpos with h0 | h0
          · rw [← h0]; simp
          · have hcc : c.close ≤ c2.close := by
              by_contra hlt
              exact h2 ⟨h0, not_le.mp hlt⟩
            have := mul_le_mul_of_nonneg_left hcc h0.le
            linarith

theorem chain_le_last : ∀ (l : List EquityPoint),
    List.Chain' (fun a b => a.equity ≤ b.equity) l →
    ∀ p ∈ l, ∀ q ∈ l.getLast?, p.equity ≤ q.equity
  | [], _, p, hp, _, _ => by simp at hp
  | [a], _, p, hp, q, hq => by
      simp only [List.mem_singleton] at hp
      simp only [List.getLast?_singleton, Option.mem_some_iff] at hq
      rw [hp, ← hq]
  | a :: b :: tl, hch, p, hp, q, hq => by
      rw [List.getLast?_cons_cons] at hq
      have hab := (List.chain'_cons.mp hch).1
      have htl := (List.chain'_cons.mp hch).2
      rcases List.mem_cons.mp hp with rfl | hp2
      · exact le_trans hab (chain_le_last (b :: tl) htl b (by simp) q hq)
      · exact chain_le_last (b :: tl) htl p hp2 q hq

theorem getLast?_mem_self : ∀ (l : List EquityPoint), ∀ q ∈ l.getLast?, q ∈ l
  | [], q, hq => by simp at hq
  | [a], q, hq => by
      simp only [List.getLast?_singleton, Option.mem_some_iff] at hq
      simp [hq]
  | a :: b :: tl, q, hq => by
      rw [List.getLast?_cons_cons] at hq
      exact List.mem_cons_of_mem _ (getLast?_mem_self (b :: tl) q hq)

theorem lastEquity_spec (l : List EquityPoint) (dflt : ℚ) (hne : l ≠ []) :
    ∃ q, l.getLast? = some q ∧ lastEquity l dflt = q.equity ∧ q ∈ l := by
  refine ⟨l.getLast hne, List.getLast?_eq_getLast l hne, ?_, List.getLast_mem hne⟩
  unfold lastEquity
  rw [List.getLast?_eq_getLast l hne]

theorem omniLoop_curve_ne_nil (c : Candle) (l : List Candle)
    (cash pos entry : ℚ) : (omniLoop cash pos entry (c :: l)).2 ≠ [] := by
  intro h
  have := omni_head c l cash pos entry
  rw [h] at this
  simp at this

/-- C9: the equity curve of the omniscient benchmark is non-decreasing
point to point for every candle list and capital, so its maximal drawdown
is 0 and its final equity is the maximum of the curve (it bounds every
point and is attained at the last one). -/
theorem omniscient_curve_monotone (candles : List Candle) (C : ℚ)
    (hne : candles ≠ []) :
    ∃ r, run_omniscient_benchmark candles C = .ok r ∧
      List.Chain' (fun a b => a.equity ≤ b.equity) r.equity_curve ∧
      r.max_drawdown = 0 ∧
      compute_max_drawdown r.equity_curve = 0 ∧
      (∀ p ∈ r.equity_curve, p.equity ≤ r.final_equity) ∧
      r.final_equity ∈ r.equity_curve.map EquityPoint.equity := by
  match candles, hne with
  | c :: l, _ =>
      refine ⟨_, rfl, ?_⟩
      have hcurve : (assembleResult C (omniLoop C 0 0 (c :: l)).2
          (omniLoop C 0 0 (c :: l)).1).equity_curve =
          (omniLoop C 0 0 (c :: l)).2 := rfl
      have hch : List.Chain' (fun a b => a.equity ≤ b.equity)
          (omniLoop C 0 0 (c :: l)).2 := omni_chain (c :: l) C 0 0 le_rfl
      have hdd : compute_max_drawdown (omniLoop C 0 0 (c :: l)).2 = 0 :=
        max_drawdown_zero_of_chain _ hch
      obtain ⟨q, hq, hlast, hqmem⟩ :=
        lastEquity_spec (omniLoop C 0 0 (c :: l)).2 C
          (omniLoop_curve_ne_nil c l C 0 0)
      have hfe : (assembleResult C (omniLoop C 0 0 (c :: l)).2
          (omniLoop C 0 0 (c :: l)).1).final_equity =
          lastEquity (omniLoop C 0 0 (c :: l)).2 C := rfl
      have hmd : (assembleResult C (omniLoop C 0 0 (c :: l)).2
          (omniLoop C 0 0 (c :: l)).1).max_drawdown =
          compute_max_drawdown (omniLoop C 0 0 (c :: l)).2 := rfl
      refine ⟨by rw [hcurve]; exact hch, by rw [hmd]; exact hdd,
        by rw [hcurve]; exact hdd, ?_, ?_⟩
      · intro p hp
        rw [hcurve] at hp
        rw [hfe, hlast]
        exact chain_le_last _ hch p hp q (by rw [hq]; rfl)
      · rw [hfe, hlast, hcurve]
        exact List.mem_map_of_mem EquityPoint.equity hqmem

theorem omniscient_curve_monotone_witness :
    ∃ r, run_omniscient_benchmark
        [(⟨0, 1, 1, 1, 1, 0⟩ : Candle), ⟨1, 2, 2, 2, 2, 0⟩, ⟨2, 1, 1, 1, 1, 0⟩] 1000 = .ok r ∧
      List.Chain' (fun a b => a.equity ≤ b.equity) r.equity_curve ∧
      r.max_drawdown = 0 ∧
      compute_max_drawdown r.equity_curve = 0 ∧
      (∀ p ∈ r.equity_curve, p.equity ≤ r.final_equity) ∧
      r.final_equity ∈ r.equity_curve.map EquityPoint.equity :=
  omniscient_curve_monotone _ 1000 (by simp)

theorem lastEquity_cons (p : EquityPoint) (l : List EquityPoint) (hl : l ≠ [])
    (d : ℚ) : lastEquity (p :: l) d = lastEquity l d := by
  cases l with
  | nil => exact absurd rfl hl
  | cons a t =>
      unfold lastEquity
      rw [List.getLast?_cons_cons]

theorem marketLoop_ne_nil : ∀ (l : List Candle) (c : Candle) (fp cash pos : ℚ),
    (marketLoop fp cash pos (c :: l)).2 ≠ []
  | [], c, fp, cash, pos => by
      unfold marketLoop
      split_ifs <;> simp
  | c2 :: rest, c, fp, cash, pos => by
      unfold marketLoop
      simp

theorem marketLoop_last : ∀ (l : List Candle) (c : Candle) (fp cash pos d : ℚ),
    lastEquity (marketLoop fp cash pos (c :: l)).2 d =
      (if pos > 0 then pos * ((c :: l).getLastD c).close
       else cash + pos * ((c :: l).getLastD c).close)
  | [], c, fp, cash, pos, d => by
      unfold marketLoop
      split_ifs with h
      · simp [lastEquity, h]
      · simp [lastEquity, h]
  | c2 :: rest, c, fp, cash, pos, d => by
      unfold marketLoop
      rw [lastEquity_cons _ _ (marketLoop_ne_nil rest c2 fp cash pos) d]
      rw [marketLoop_last rest c2 fp cash pos d]
      have hgl : ((c2 :: rest).getLast?).getD c2 = ((c2 :: rest).getLast?).getD c := by
        rw [List.getLast?_eq_getLast (c2 :: rest) (by simp)]
        rfl
      simp only [List.getLastD_eq_getLast?] at hgl ⊢
      rw [hgl]
      simp [List.getLastD_cons]

theorem omni_flat_nonpos : ∀ (l : List Candle) (c : Candle),
    (∀ x ∈ c :: l, 0 < x.close) → ∀ (cash entry d : ℚ), cash ≤ 0 →
    lastEquity (omniLoop cash 0 entry (c :: l)).2 d = cash
  | [], c, hpos, cash, entry, d, hcash => by
      unfold omniLoop
      simp [lastEquity]
  | c2 :: rest, c, hpos, cash, entry, d, hcash => by
      have hc : 0 < c.close := hpos c (by simp)
      have hq : ¬ (0 : ℚ) < (if c.close > 0 then cash / c.close else 0) := by
        rw [if_pos hc]
        exact not_lt.mpr (div_nonpos_iff.mpr (Or.inr ⟨hcash, hc.le⟩))
      have hrec := omni_flat_nonpos rest c2
        (fun x hx => hpos x (List.mem_cons_of_mem _ hx)) cash entry d hcash
      unfold omniLoop
      by_cases h1 : c2.close > c.close
      · rw [if_pos ⟨rfl, h1⟩, if_neg hq]
        exact (lastEquity_cons _ _
          (omniLoop_curve_ne_nil c2 rest cash 0 entry) d).trans hrec
      · rw [if_neg (fun hh => h1 hh.2),
          if_neg (fun hh => lt_irrefl (0 : ℚ) hh.1)]
        exact (lastEquity_cons _ _
          (omniLoop_curve_ne_nil c2 rest cash 0 entry) d).trans hrec

theorem omni_dom : ∀ (l : List Candle) (c : Candle),
    (∀ x ∈ c :: l, 0 < x.close) →
    ∀ (cash pos entry : ℚ), 0 ≤ pos → (pos = 0 → 0 < cash) →
    (0 < pos → cash = 0) →
    0 < lastEquity (omniLoop cash pos entry (c :: l)).2 0 ∧
    (cash + pos * c.close) * ((c :: l).getLastD c).close ≤
      lastEquity (omniLoop cash pos entry (c :: l)).2 0 * c.close
  | [], c, hposl, cash, pos, entry, hpos0, hflat, hlong => by
      have hc : 0 < c.close := hposl c (by simp)
      have hgl : ([c] : List Candle).getLastD c = c := by simp
      unfold omniLoop
      split_ifs with h
      · have hcash0 : cash = 0 := hlong h
        refine ⟨?_, ?_⟩
        · simp only [lastEquity, List.getLast?_singleton]
          rw [hcash0]
          have := mul_pos h hc
          linarith
        · simp only [lastEquity, List.getLast?_singleton, hgl]
          exact le_of_eq (by ring)
      · have hp0 : pos = 0 := le_antisymm (not_lt.mp h) hpos0
        have hcash : 0 < cash := hflat hp0
        refine ⟨?_, ?_⟩
        · simp only [lastEquity, List.getLast?_singleton]
          rw [hp0]
          linarith
        · simp only [lastEquity, List.getLast?_singleton, hgl]
          exact le_rfl
  | c2 :: rest, c, hposl, cash, pos, entry, hpos0, hflat, hlong => by
      have hc : 0 < c.close := hposl c (by simp)
      have hc2 : 0 < c2.close := hposl c2 (by simp)
      have hpostail : ∀ x ∈ c2 :: rest, 0 < x.close :=
        fun x hx => hposl x (List.mem_cons_of_mem _ hx)
      have hlasteq : ((c :: c2 :: rest).getLastD c).close =
          ((c2 :: rest).getLastD c2).close := by
        rw [List.getLastD_cons]
        simp only [List.getLastD_eq_getLast?]
        rw [List.getLast?_eq_getLast (c2 :: rest) (by simp)]
        rfl
      have hL : 0 < ((c2 :: rest).getLastD c2).close := by
        have hmem : (c2 :: rest).getLastD c2 = (c2 :: rest).getLast (by simp) := by
          simp only [List.getLastD_eq_getLast?]
          rw [List.getLast?_eq_getLast (c2 :: rest) (by simp)]
          rfl
        rw [hmem]
        exact hpostail _ (List.getLast_mem _)
      rw [hlasteq]
      set L := ((c2 :: rest).getLastD c2).close with hLdef
      by_cases hb : pos = 0 ∧ c2.close > c.close
      · have hcash : 0 < cash := hflat hb.1
        have hcgt : c.close > 0 := hc
        have hq' : (0 : ℚ) < cash / c.close := div_pos hcash hc
        have hqty : (if c.close > 0 then cash / c.close else 0) > 0 := by
          rw [if_pos hcgt]
          exact hq'
        have hcash2 : cash - (if c.close > 0 then cash / c.close else 0) * c.close = 0 := by
          rw [if_pos hcgt]
          field_simp
        have heq : lastEquity (omniLoop cash pos entry (c :: c2 :: rest)).2 0 =
            lastEquity (omniLoop
              (cash - (if c.close > 0 then cash / c.close else 0) * c.close)
              (if c.close > 0 then cash / c.close else 0) c.close (c2 :: rest)).2 0 := by
          conv_lhs => unfold omniLoop
          rw [if_pos hb, if_pos hqty]
          exact lastEquity_cons _ _ (omniLoop_curve_ne_nil _ _ _ _ _) 0
        rw [heq, if_pos hcgt] at *
        have IH := omni_dom rest c2 hpostail (cash - cash / c.close * c.close)
          (cash / c.close) c.close (le_of_lt hq')
          (fun h0 => absurd h0 hq'.ne') (fun _ => hcash2)
        refine ⟨IH.1, ?_⟩
        rw [← hLdef] at IH
        have hIH2 := IH.2
        set F := lastEquity (omniLoop (cash - cash / c.close * c.close)
          (cash / c.close) c.close (c2 :: rest)).2 0 with hF
        have key : cash / c.close * L ≤ F := by
          have h' : cash / c.close * L * c2.close ≤ F * c2.close := by
            rw [hcash2] at hIH2
            linarith [hIH2]
          exact le_of_mul_le_mul_right h' hc2
        have h2 := mul_le_mul_of_nonneg_right key hc.le
        have h3 : cash / c.close * L * c.close = cash * L := by
          field_simp
        rw [hb.1]
        linarith [h2, h3]
      · by_cases hs : pos > 0 ∧ c2.close < c.close
        · have hcash0 : cash = 0 := hlong hs.1
          have hcash2pos : 0 < cash + pos * c.close := by
            rw [hcash0]
            have := mul_pos hs.1 hc
            linarith
          have heq : lastEquity (omniLoop cash pos entry (c :: c2 :: rest)).2 0 =
              lastEquity (omniLoop (cash + pos * c.close) 0 0 (c2 :: rest)).2 0 := by
            conv_lhs => unfold omniLoop
            rw [if_neg hb, if_pos hs]
            exact lastEquity_cons _ _ (omniLoop_curve_ne_nil _ _ _ _ _) 0
          have IH := omni_dom rest c2 hpostail (cash + pos * c.close) 0 0
            le_rfl (fun _ => hcash2pos) (fun h0 => absurd h0 (lt_irrefl 0))
          rw [heq]
          rw [← hLdef] at IH
          refine ⟨IH.1, ?_⟩
          have hIH2 := IH.2
          have h4 : lastEquity (omniLoop (cash + pos * c.close) 0 0 (c2 :: rest)).2 0 * c2.close ≤
              lastEquity (omniLoop (cash + pos * c.close) 0 0 (c2 :: rest)).2 0 * c.close :=
            mul_le_mul_of_nonneg_left hs.2.le IH.1.le
          linarith [hIH2, h4]
        · have heq : lastEquity (omniLoop cash pos entry (c :: c2 :: rest)).2 0 =
              lastEquity (omniLoop cash pos entry (c2 :: rest)).2 0 := by
            conv_lhs => unfold omniLoop
            rw [if_neg hb, if_neg hs]
            exact lastEquity_cons _ _ (omniLoop_curve_ne_nil _ _ _ _ _) 0
          have IH := omni_dom rest c2 hpostail cash pos entry hpos0 hflat hlong
          rw [heq]
          rw [← hLdef] at IH
          refine ⟨IH.1, ?_⟩
          have hIH2 := IH.2
          set F := lastEquity (omniLoop cash pos entry (c2 :: rest)).2 0 with hF
          rcases eq_or_lt_of_le hpos0 with h0 | h0
          · have hcc : c2.close ≤ c.close := by
              by_contra hgt
              exact hb ⟨h0.symm, not_le.mp hgt⟩
            rw [← h0] at hIH2 ⊢
            have h4 : F * c2.close ≤ F * c.close :=
              mul_le_mul_of_nonneg_left hcc IH.1.le
            linarith [hIH2, h4]
          · have hcash0 : cash = 0 := hlong h0
            have hcc : c.close ≤ c2.close := by
              by_contra hlt
              exact hs ⟨h0, not_le.mp hlt⟩
            rw [hcash0] at hIH2 ⊢
            have key : pos * L ≤ F := by
              have h' : pos * L * c2.close ≤ F * c2.close := by
                linarith [hIH2]
              exact le_of_mul_le_mul_right h' hc2
            have h5 := mul_le_mul_of_nonneg_right key hc.le
            linarith [h5]

theorem lastEquity_default (l : List EquityPoint) (hl : l ≠ []) (d1 d2 : ℚ) :
    lastEquity l d1 = lastEquity l d2 := by
  unfold lastEquity
  rw [List.getLast?_eq_getLast l hl]

/-- C2 (amended): on every nonempty candle list all of whose closes are
positive, the final equity of the omniscient benchmark is at least the
final equity of the market buy-and-hold baseline, for every initial
capital. The unrestricted claim fails when an intermediate close is 0,
since the omniscient entry guard cannot buy at price 0 while the market
baseline holds through it. -/
theorem omniscient_dominates_market (candles : List Candle) (C : ℚ)
    (hne : candles ≠ []) (hpos : ∀ x ∈ candles, 0 < x.close) :
    ∃ rm ro, run_market_benchmark candles C = .ok rm ∧
      run_omniscient_benchmark candles C = .ok ro ∧
      rm.final_equity ≤ ro.final_equity := by
  match candles, hne, hpos with
  | c :: l, _, hpos =>
    have hc : 0 < c.close := hpos c (by simp)
    have hc0 : ¬ c.close = 0 := hc.ne'
    have homni_ne := omniLoop_curve_ne_nil c l C 0 0
    have hofe : lastEquity (omniLoop C 0 0 (c :: l)).2 C =
        lastEquity (omniLoop C 0 0 (c :: l)).2 0 :=
      lastEquity_default _ homni_ne C 0
    by_cases hq : C / c.close > 0
    · have hC : 0 < C := by
        by_contra hnc
        push_neg at hnc
        have hle : C / c.close ≤ 0 := div_nonpos_iff.mpr (Or.inr ⟨hnc, hc.le⟩)
        exact absurd hq (not_lt.mpr hle)
      have hdom := omni_dom l c hpos C 0 0 le_rfl (fun _ => hC)
        (fun h0 => absurd h0 (lt_irrefl 0))
      have hmdef : run_market_benchmark (c :: l) C =
          .ok (assembleResult C
            (marketLoop c.close 0 (C / c.close) (c :: l)).2
            ([Trade.mk c.ts "buy" c.close (C / c.close) 0] ++
              (marketLoop c.close 0 (C / c.close) (c :: l)).1)) := by
        simp only [run_market_benchmark, hc0, if_false, ite_false, hq,
          if_true, ite_true]
      rw [hmdef]
      refine ⟨_, _, rfl, rfl, ?_⟩
      show lastEquity (marketLoop c.close 0 (C / c.close) (c :: l)).2 C ≤
        lastEquity (omniLoop C 0 0 (c :: l)).2 C
      rw [marketLoop_last l c c.close 0 (C / c.close) C, if_pos hq, hofe]
      have h2 := hdom.2
      rw [div_mul_eq_mul_div, div_le_iff hc]
      linarith [h2]
    · have hCle : C ≤ 0 := by
        by_contra hCpos
        push_neg at hCpos
        exact hq (div_pos hCpos hc)
      have hmdef : run_market_benchmark (c :: l) C =
          .ok (assembleResult C (marketLoop c.close C 0 (c :: l)).2
            ([] ++ (marketLoop c.close C 0 (c :: l)).1)) := by
        simp only [run_market_benchmark, hc0, if_false, ite_false, hq]
      rw [hmdef]
      refine ⟨_, _, rfl, rfl, ?_⟩
      show lastEquity (marketLoop c.close C 0 (c :: l)).2 C ≤
        lastEquity (omniLoop C 0 0 (c :: l)).2 C
      rw [marketLoop_last l c c.close C 0 C,
        if_neg (by norm_num : ¬ ((0 : ℚ) > 0)), hofe]
      rw [omni_flat_nonpos l c hpos C 0 0 hCle]
      simp

/-- C2 counterexample: on the closes 1, 0, 5 with capital 1000 the market
baseline buys at 1 and liquidates at 5 for 5000, while the omniscient
benchmark stays out (it cannot buy at the zero close before the rise and
does not foresee past one bar), ending at 1000, so the unrestricted
dominance claim is false. -/
theorem omniscient_vs_market_cx :
    (run_market_benchmark
        [⟨0, 1, 1, 1, 1, 0⟩, ⟨1, 0, 0, 0, 0, 0⟩, ⟨2, 5, 5, 5, 5, 0⟩] 1000).toOption.map
      BacktestResult.final_equity = some 5000 ∧
    (run_omniscient_benchmark
        [⟨0, 1, 1, 1, 1, 0⟩, ⟨1, 0, 0, 0, 0, 0⟩, ⟨2, 5, 5, 5, 5, 0⟩] 1000).toOption.map
      BacktestResult.final_equity = some 1000 ∧
    ¬ ((5000 : ℚ) ≤ 1000) := by
  refine ⟨?_, ?_, by norm_num⟩
  · norm_num [run_market_benchmark, marketLoop, assembleResult, lastEquity]
    exact ⟨_, rfl, rfl⟩
  · norm_num [run_omniscient_benchmark, omniLoop, assembleResult, lastEquity]
    exact ⟨_, rfl, rfl⟩

theorem omniscient_dominates_market_witness :
    ∃ rm ro, run_market_benchmark
        [(⟨0, 1, 1, 1, 1, 0⟩ : Candle), ⟨1, 2, 2, 2, 2, 0⟩] 1000 = .ok rm ∧
      run_omniscient_benchmark
        [(⟨0, 1, 1, 1, 1, 0⟩ : Candle), ⟨1, 2, 2, 2, 2, 0⟩] 1000 = .ok ro ∧
      rm.final_equity ≤ ro.final_equity :=
  omniscient_dominates_market _ 1000 (by simp)
    (by intro x hx; fin_cases hx <;> norm_num)
